import Mathlib

/-!
# Verification of the pdm dependency-group resolution engine

A shallow embedding of `src/pdm/project/core.py`: the group resolver
(`_resolve_dependencies` and its inner `_get_dependencies`), the accessors
`get_dependencies` / `all_dependencies` / `iter_groups`, and the mutation entry
point `add_dependencies`.

Python's mutable `Requirement` objects (whose `.groups` provenance lists are
mutated in place through aliased lists) are modelled by a store: requirement
objects live in a single `List Requirement` and the per-group lists hold store
indices, so in-place mutation of a shared object is an update of the store at
one index.  Python `dict`s are modelled as association lists with unique keys,
first-occurrence update (matching dict insertion-order semantics).  Python
`set` iteration order is unspecified; the model fixes insertion order, which is
one admissible execution.  Errors are a structured sum (`PErr`); the fixed-point
loop additionally distinguishes fuel exhaustion (`Res.fuel`), which is proved
unreachable.
-/

namespace Pdm

/-- Is this a name separator character folded by the ecosystem's package-name
normalization rule (`-`, `_`, `.`)? -/
def isSepChar (c : Char) : Bool :=
  c = '-' || c = '_' || c = '.'

/-- Modelled from the spec: `normalize_name` (§4.2), supplied by `pdm.utils`
which is not under `src/`.  Case-folds and collapses every run of `-`, `_`,
`.` into a single `-` (the ecosystem's package-name normalization). -/
def normalizeName (s : String) : String :=
  let step : (Bool × List Char) → Char → (Bool × List Char) := fun (prevSep, acc) c =>
    if isSepChar c then
      if prevSep then (true, acc) else (true, acc ++ ['-'])
    else
      (false, acc ++ [c.toLower])
  String.mk (s.data.foldl step (false, [])).2

/-- Does the second character list start with the first? (A structural
re-implementation of string prefix testing, so that it evaluates inside the
kernel.) -/
def charsLead : List Char → List Char → Bool
  | [], _ => true
  | _ :: _, [] => false
  | a :: as, b :: bs => a = b && charsLead as bs

/-- `String.startswith` on the model's strings. -/
def strStartsWith (pre s : String) : Bool :=
  charsLead pre.data s.data

/-- An ASCII whitespace character. -/
def isSpaceChar (c : Char) : Bool :=
  c = ' ' || c = '\t' || c = '\n' || c = '\r'

/-- `str.strip()` on the model's strings (structural). -/
def strTrim (s : String) : String :=
  String.mk (((s.data.dropWhile isSpaceChar).reverse.dropWhile isSpaceChar).reverse)

/-- Split a character list at commas (structural). -/
def splitCommaAux : List Char → List Char → List String
  | [], cur => [String.mk cur.reverse]
  | ch :: rest, cur =>
    if ch = ',' then String.mk cur.reverse :: splitCommaAux rest []
    else splitCommaAux rest (ch :: cur)

/-- `str.split(",")` on the model's strings. -/
def splitComma (s : String) : List String :=
  splitCommaAux s.data []

/-- Modelled from the spec: `strip_extras` (§4.1), supplied by
`pdm.models.requirements` which is not under `src/`.  Splits
`pkg[extra1,extra2]` into the name and the list of extras; a string without
bracket syntax is the identity split with no extras; the empty string is the
failure case (the caller swallows the error). -/
def stripExtras (s : String) : Option (String × List String) :=
  if s.isEmpty then none
  else
    match s.data.findIdx? (· = '[') with
    | none => some (s, [])
    | some i =>
      if s.data.getLast? = some ']' then
        let inner := (s.data.drop (i + 1)).dropLast
        if inner.isEmpty || inner.contains ']' then some (s, [])
        else
          let extras := (splitComma (String.mk inner)).map strTrim
          some (String.mk (s.data.take i), extras)
      else some (s, [])

/-- One parsed dependency declaration, with its mutable provenance list
(`.groups`). -/
structure Requirement where
  editable : Bool
  name : String
  extras : List String
  specifier : String
  line : String
  groups : List String
deriving Repr, DecidableEq, Inhabited

/-- Is this character part of a bare package name? -/
def isNameChar (c : Char) : Bool :=
  c.isAlphanum || isSepChar c


/-- Modelled from the spec: `parse_line` (§4.1, §6), supplied by
`pdm.models.requirements` which is not under `src/`.  Parses a dependency line
into a `Requirement`: an `-e ` prefix marks an editable (path/URL) requirement
with no canonical name yet; otherwise the leading name, an optional bracketed
extras list, and the trailing specifier are split apart.  The name and extras
are stored normalized.  (The `ParseError` failure case of the external parser
is not exercised by any verified property and is not modelled.) -/
def parse_line (line : String) : Requirement :=
  if strStartsWith "-e " line then
    { editable := true, name := "", extras := [], specifier := "",
      line := line, groups := [] }
  else
    let namePart := String.mk (line.data.takeWhile isNameChar)
    let rest := line.data.drop namePart.data.length
    let (extras, spec) :=
      match rest with
      | '[' :: tl =>
        let inner := tl.takeWhile (· ≠ ']')
        let after := (tl.drop inner.length).drop 1
        ((splitComma (String.mk inner)).map (fun (e : String) => normalizeName (strTrim e)),
          String.mk after)
      | _ => ([], String.mk rest)
    { editable := false, name := normalizeName namePart, extras := extras,
      specifier := strTrim spec, line := line, groups := [] }

/-- Insert a string into a ≤-sorted list, keeping it sorted. -/
def insertSorted (s : String) : List String → List String
  | [] => [s]
  | t :: ts => if s ≤ t then s :: t :: ts else t :: insertSorted s ts

/-- Sort a list of strings (insertion sort). -/
def sortStrings (l : List String) : List String :=
  l.foldr insertSorted []

/-- Modelled from the spec: `Requirement.as_line` (§4.1) round-trips the
requirement to its textual form; the original line re-parses to an equivalent
requirement, so the model keeps the stored line. -/
def Requirement.as_line (r : Requirement) : String := r.line

/-- Modelled from the spec: `Requirement.matches` (§4.1), supplied by
`pdm.models.requirements` which is not under `src/`.  Whether a textual
declaration refers to the same logical package+extras as this requirement:
comparison is on normalized name and extras set, ignoring the version
specifier. -/
def Requirement.matches (req : Requirement) (line : String) : Bool :=
  let other := parse_line line
  req.name == other.name
    && sortStrings req.extras.eraseDups == sortStrings other.extras.eraseDups

/-- One raw item of a dependency table: a string line, or (in dev tables) a
structured directive given as a dict, modelled by its key/value pairs. -/
inductive Item where
  | str (s : String)
  | dict (pairs : List (String × String))
deriving Repr, DecidableEq, Inhabited

/-- Association-list lookup (first occurrence), as a Python `dict` read. -/
def alGet {α : Type} (l : List (String × α)) (k : String) : Option α :=
  (l.find? (fun p => p.1 == k)).map (·.2)

/-- Association-list key-membership test, as Python `k in d`. -/
def alHas {α : Type} (l : List (String × α)) (k : String) : Bool :=
  l.any (fun p => p.1 == k)

/-- Association-list write, as a Python `dict` write: update the first
occurrence in place, or append a new binding at the end. -/
def alSet {α : Type} : List (String × α) → String → α → List (String × α)
  | [], k, v => [(k, v)]
  | (k', v') :: rest, k, v =>
    if k' == k then (k, v) :: rest else (k', v') :: alSet rest k v

/-- Association-list deletion, as Python `dict.pop`. -/
def alErase {α : Type} (l : List (String × α)) (k : String) : List (String × α) :=
  l.filter (fun p => p.1 != k)

/-- The keys of an association list, in order. -/
def alKeys {α : Type} (l : List (String × α)) : List String :=
  l.map (·.1)

/-- Append an element to an order-preserving set-as-list if not present
(models adding to a Python `set`, fixing insertion order). -/
def insertNew (l : List String) (s : String) : List String :=
  if l.contains s then l else l ++ [s]

/-- Errors raised by the resolver, structured (`core.py` raises `ProjectError`
with a message in each case except the bare `KeyError` coming from the
`dev_dependencies[group]` mapping lookup at line 373). -/
inductive PErr where
  /-- `ProjectError`: "Optional dependency group '{group}' cannot include
  non-existing extras: [{names}]" (core.py:391). -/
  | nonExistingExtras (group : String) (notAllowed : List String)
  /-- `ProjectError`: "Invalid dependency group item: {item}" (core.py:400). -/
  | invalidGroupItem (item : Item)
  /-- `ProjectError`: "Missing group '{name}' in `include-group`" (core.py:403). -/
  | missingIncludeGroup (name : String)
  /-- `ProjectError`: "Invalid dependency in group {group}: {item}" (core.py:406). -/
  | invalidDependency (group : String) (item : Item)
  /-- `ProjectError`: "Cyclic dependency group include detected: {pending}"
  (core.py:464); carries the still-pending group names. -/
  | cyclicInclude (pending : List String)
  /-- `ProjectError`: "Dependency group {group} does not exist" (core.py:348). -/
  | groupNotExist (group : String)
  /-- A bare Python `KeyError` from a mapping lookup on a missing key. -/
  | keyError (key : String)
deriving Repr, DecidableEq

/-- Whether the raised exception is a `ProjectError` (every structured case
except the bare `KeyError`). -/
def PErr.isProjectError : PErr → Bool
  | .keyError _ => false
  | _ => true

/-- The project manifest as the resolver reads it: the project name, the
metadata `dependencies` array, the metadata `optional-dependencies` table, and
the merged development table.  `devDependencies` models the external
`pyproject.dev_dependencies` property (`project_file.py`, not under `src/`):
modelled from the spec (§4.3), it is the merge of the `[dependency-groups]`
and `[tool.pdm.dev-dependencies]` tables with group keys already
normalized. -/
structure Manifest where
  name : Option String
  dependencies : List Item
  optionalDependencies : List (String × List Item)
  devDependencies : List (String × List Item)
deriving Repr, DecidableEq

/-- The context `_resolve_dependencies` closes over: `metadata_dependencies`
(normalized optional groups plus the `"default"` entry, core.py:427-430), the
dev table, and the normalized project name (core.py:433). -/
structure Ctx where
  md : List (String × List Item)
  dev : List (String × List Item)
  pn : Option String
deriving Repr, DecidableEq

/-- Build the resolver context from a manifest (core.py:427-433; `self.name`
is falsy when unset or empty). -/
def mkCtx (m : Manifest) : Ctx :=
  { md := alSet (m.optionalDependencies.foldl
        (fun acc p => alSet acc (normalizeName p.1) p.2) []) "default" m.dependencies,
    dev := m.devDependencies,
    pn := match m.name with
      | none => none
      | some s => if s.isEmpty then none else some (normalizeName s) }

/-- `iter_groups` (core.py:351-357): `default`, the optional groups and the dev
groups, all normalized; a Python set, modelled with a fixed insertion order. -/
def iterGroups (m : Manifest) : List String :=
  (("default" :: alKeys m.optionalDependencies ++ alKeys m.devDependencies).map
    normalizeName).eraseDups

/-- The groups a self-reference's extras are checked against (core.py:383-387):
the metadata groups only when expanding a metadata group, all groups
otherwise. -/
def allowedKeys (c : Ctx) (in_md : Bool) : List String :=
  if in_md then alKeys c.md else alKeys c.md ++ alKeys c.dev

/-- The first phase of `_get_dependencies` (core.py:374-406): walk the group's
raw items, separating collected dependency lines from referred groups.
`in_md` is `in_metadata`; `collected`/`referred` are the accumulators (the
referred "set" keeps insertion order). -/
def collectItems (c : Ctx) (group : String) (in_md : Bool) :
    List Item → List String → List String → Except PErr (List String × List String)
  | [], collected, referred => .ok (collected, referred)
  | .str s :: rest, collected, referred =>
    match stripExtras s with
    | some (name, extras) =>
      if some (normalizeName name) == c.pn then
        if extras.isEmpty then
          collectItems c group in_md rest collected referred
        else
          let allowed := allowedKeys c in_md
          let extrasN := extras.map normalizeName
          let notAllowed := extrasN.filter (fun e => !allowed.contains e)
          if notAllowed.isEmpty then
            collectItems c group in_md rest collected (extrasN.foldl insertNew referred)
          else
            -- the error lists the offending names (a Python set: deduplicated)
            .error (.nonExistingExtras group notAllowed.eraseDups)
      else
        collectItems c group in_md rest (collected ++ [s]) referred
    | none =>
      -- `strip_extras` raised `AssertionError`: swallowed, the item is kept.
      collectItems c group in_md rest (collected ++ [s]) referred
  | .dict pairs :: rest, collected, referred =>
    if in_md then
      .error (.invalidDependency group (.dict pairs))
    else if (pairs.map (·.1)) == ["include-group"] then
      let ig := normalizeName ((pairs.headD ("", "")).2)
      if alHas c.dev ig then
        collectItems c group in_md rest collected (insertNew referred ig)
      else
        .error (.missingIncludeGroup ig)
    else
      .error (.invalidGroupItem (.dict pairs))

/-- The second phase of `_get_dependencies` (core.py:407-420): parse the
collected lines, skipping editable lines in metadata groups (with a warning as
the only side effect), and initialize each requirement's provenance to exactly
the declaring group. -/
def parseCollected (group : String) (in_md : Bool) : List String → List Requirement
  | [] => []
  | line :: rest =>
    if strStartsWith "-e " line && in_md then
      parseCollected group in_md rest
    else
      { parse_line line with groups := [group] } :: parseCollected group in_md rest

/-- `_get_dependencies` (core.py:369-421): expand one group into its direct
requirements and the set of groups it refers to.  A group absent from both
tables hits the bare `dev_dependencies[group]` mapping lookup, a Python
`KeyError` (core.py:373). -/
def getGroupDeps (c : Ctx) (group : String) :
    Except PErr (List Requirement × List String) :=
  let in_md := alHas c.md group
  let depsE : Except PErr (List Item) :=
    if in_md then .ok ((alGet c.md group).getD [])
    else
      match alGet c.dev group with
      | some d => .ok d
      | none => .error (.keyError group)
  match depsE with
  | .error e => .error e
  | .ok deps =>
    match collectItems c group in_md deps [] [] with
    | .error e => .error e
    | .ok pr => .ok (parseCollected group in_md pr.1, pr.2)

/-- The mutable state of the fixed-point closure: the store of requirement
objects (Python heap objects, addressed by index), `group_deps`, `extra_deps`
and `referred_groups` (index lists in place of object lists), and the growing
`requested_groups` list. -/
structure RS where
  store : List Requirement
  groupDeps : List (String × List Nat)
  extraDeps : List (String × List Nat)
  referredGroups : List (String × List String)
  requested : List String
deriving Repr, DecidableEq

/-- Append freshly parsed requirement objects to the store, returning their
indices. -/
def pushReqs (store : List Requirement) (reqs : List Requirement) :
    List Requirement × List Nat :=
  (store ++ reqs, (List.range reqs.length).map (store.length + ·))

/-- Append `group` to the provenance of the requirement at index `i` unless
already present (core.py:457-458). -/
def stampOne (store : List Requirement) (group : String) (i : Nat) : List Requirement :=
  match store.get? i with
  | some r =>
    if r.groups.contains group then store
    else store.set i { r with groups := r.groups ++ [group] }
  | none => store

/-- Stamp a list of requirement indices with `group` (core.py:456-458). -/
def stampAll (store : List Requirement) (group : String) (idxs : List Nat) :
    List Requirement :=
  idxs.foldl (fun st i => stampOne st group i) store

/-- The `if ref not in requested_groups` arm of the closure (core.py:445-452):
expand a never-requested referred group, record its direct requirements, and,
when it has referred groups of its own, enter it into the pending map and
return the pair to be appended to the pass's worklist. -/
def expandIfNew (c : Ctx) (st : RS) (ref : String) :
    Except PErr (RS × Option (String × List String)) :=
  if st.requested.contains ref then .ok (st, none)
  else
    match getGroupDeps c ref with
    | .error e => .error e
    | .ok pr =>
      let st' : RS :=
        { st with store := (pushReqs st.store pr.1).1,
                  groupDeps := alSet st.groupDeps ref (pushReqs st.store pr.1).2,
                  requested := st.requested ++ [ref] }
      if pr.2.isEmpty then .ok (st', none)
      else .ok ({ st' with referredGroups := alSet st'.referredGroups ref pr.2 },
        some (ref, pr.2))

/-- Resolving the edge `group → ref` once `ref` is fully resolved
(core.py:455-458): extend the group's `extra_deps` accumulator with `ref`'s
direct requirements, then stamp `group` onto `ref`'s direct and inherited
requirements.  `group_deps[ref]` is always present here, `ref` having been
expanded when it entered `requested_groups`. -/
def resolveEdge (st : RS) (group ref : String) : RS :=
  let refIdxs := (alGet st.groupDeps ref).getD []
  let st := { st with
    extraDeps := alSet st.extraDeps group
      ((alGet st.extraDeps group).getD [] ++ refIdxs) }
  let chainIdxs := refIdxs ++ (alGet st.extraDeps ref).getD []
  { st with store := stampAll st.store group chainIdxs }

/-- Process the pending referred groups of one group within a pass: the inner
`for ref in list(referred)` loop (core.py:444-460).  `newWork` collects the
pairs appended to `ref_iter` by expansions, `remaining` the refs deferred this
pass (core.py:453-454, `ref` still pending), `updated` the progress flag
(core.py:459-460 removes a resolved ref and marks progress). -/
def procRefs (c : Ctx) (group : String) :
    RS → List (String × List String) → List String → Bool → List String →
    Except PErr (RS × List (String × List String) × List String × Bool)
  | st, newWork, remaining, updated, [] => .ok (st, newWork, remaining, updated)
  | st, newWork, remaining, updated, ref :: refs =>
    match expandIfNew c st ref with
    | .error e => .error e
    | .ok pr =>
      let newWork := newWork ++ pr.2.toList
      if alHas pr.1.referredGroups ref then
        procRefs c group pr.1 newWork (remaining ++ [ref]) updated refs
      else
        procRefs c group (resolveEdge pr.1 group ref) newWork remaining true refs

/-- After a group's refs are processed within a pass, its pending entry is
removed when emptied (core.py:461-462, `referred_groups.pop`) or holds the
remaining refs (Python mutated the set in place). -/
def writeBack (st : RS) (group : String) (remaining : List String) : RS :=
  if remaining.isEmpty then
    { st with referredGroups := alErase st.referredGroups group }
  else
    { st with referredGroups := alSet st.referredGroups group remaining }

/-- One full pass over the pending worklist: the `for group, referred in
ref_iter` loop (core.py:442-462).  After a group's refs are processed, its
pending entry is written back; pairs appended by expansions are processed at
the tail of the same pass.  `fuel` bounds the worklist length and is proved
sufficient. -/
def passStep (c : Ctx) :
    Nat → RS → Bool → List (String × List String) → Except PErr (RS × Bool) ⊕ Unit
  | _, st, updated, [] => .inl (.ok (st, updated))
  | 0, _, _, _ :: _ => .inr ()
  | fuel + 1, st, updated, (group, refs) :: work =>
    match procRefs c group st [] [] updated refs with
    | .error e => .inl (.error e)
    | .ok quad =>
      passStep c fuel (writeBack quad.1 group quad.2.2.1) quad.2.2.2
        (work ++ quad.2.1)

/-- The result of the fixed-point loop: a value, a raised error, or fuel
exhaustion (proved unreachable for the fuel the resolver computes). -/
inductive Res (α : Type) where
  | ok (a : α)
  | err (e : PErr)
  | fuel
deriving Repr, DecidableEq

/-- The universe of group names that can ever be expanded during closure: the
keys of the metadata table and of the dev table. -/
def kUniv (c : Ctx) : List String :=
  (alKeys c.md ++ alKeys c.dev).dedup

/-- How many referred groups one group's expansion yields (0 when expansion
fails; the loop then fails before the count matters). -/
def refCount (c : Ctx) (g : String) : Nat :=
  match getGroupDeps c g with
  | .ok (_, r) => r.length
  | .error _ => 0

/-- Total size of a pending map. -/
def pendL (l : List (String × List String)) : Nat :=
  (l.map (fun p => p.2.length)).sum

/-- Total size of the pending map: the termination measure's first summand. -/
def pend (st : RS) : Nat :=
  pendL st.referredGroups

/-- The referred groups that could still be discovered: the termination
measure's second summand. -/
def slack (c : Ctx) (req : List String) : Nat :=
  (((kUniv c).filter (fun g => !req.contains g)).map (refCount c)).sum

/-- How many expandable groups have not been requested yet. -/
def ucount (c : Ctx) (req : List String) : Nat :=
  ((kUniv c).filter (fun g => !req.contains g)).length

/-- The within-pass worklist bound: pending entries plus groups not yet
requested. -/
def innerFuel (c : Ctx) (st : RS) : Nat :=
  st.referredGroups.length + ucount c st.requested

/-- The `while referred_groups` loop (core.py:440-464): run passes until the
pending map empties; a pass that resolves no edge raises the cyclic-include
`ProjectError` naming the still-pending groups. -/
def outerLoop (c : Ctx) : Nat → RS → Res RS
  | 0, _ => .fuel
  | fuel + 1, st =>
    if st.referredGroups.isEmpty then .ok st
    else
      match passStep c (innerFuel c st) st false st.referredGroups with
      | .inr () => .fuel
      | .inl (.error e) => .err e
      | .inl (.ok (st', updated)) =>
        if updated then outerLoop c fuel st'
        else .err (.cyclicInclude (alKeys st'.referredGroups))

/-- The body of the initial expansion loop (core.py:434-438): seed
`group_deps` with each requested group's direct requirements and
`referred_groups` with its referred set when non-empty. -/
def seedGo (c : Ctx) : RS → List String → Except PErr RS
  | st, [] => .ok st
  | st, group :: rest =>
    match getGroupDeps c group with
    | .error e => .error e
    | .ok pr =>
      let st' : RS :=
        { st with store := (pushReqs st.store pr.1).1,
                  groupDeps := alSet st.groupDeps group (pushReqs st.store pr.1).2 }
      if pr.2.isEmpty then seedGo c st' rest
      else seedGo c { st' with referredGroups := alSet st'.referredGroups group pr.2 }
        rest

/-- The initial expansion of the requested groups (core.py:434-438), seeding
`group_deps` and `referred_groups` from the empty working state. -/
def seed (c : Ctx) (requested : List String) : Except PErr RS :=
  seedGo c { store := [], groupDeps := [], extraDeps := [],
             referredGroups := [], requested := requested } requested

/-- The post-loop inlining and the final table (core.py:465-468): when
`include_referred` is set, append each group's accumulated extra requirements
to its list (every `extra_deps` key is a `group_deps` key, so the Python
`group_deps[group]` lookup cannot fail), then read the requirement objects
back out of the store. -/
def finalize (st : RS) (includeReferred : Bool) : List (String × List Requirement) :=
  let gd :=
    if includeReferred then
      st.extraDeps.foldl
        (fun acc p => alSet acc p.1 ((alGet acc p.1).getD [] ++ p.2)) st.groupDeps
    else st.groupDeps
  gd.map (fun p => (p.1, p.2.map (fun i => st.store.getD i default)))

/-- The fuel the resolver hands to the outer loop: one pass per unit of the
measure, plus one. -/
def outerFuel (c : Ctx) (st : RS) : Nat :=
  pend st + slack c st.requested + 1

/-- `_resolve_dependencies` (core.py:359-468): normalize the requested groups
(all declared groups when none are given), seed the working table, close over
referred groups to a fixed point, and return the per-group requirement
lists. -/
def resolveDependencies (m : Manifest) (requestedGroups : Option (List String))
    (includeReferred : Bool) : Res (List (String × List Requirement)) :=
  let c := mkCtx m
  let requested := (requestedGroups.getD (iterGroups m)).map normalizeName
  match seed c requested with
  | .error e => .err e
  | .ok st =>
    match outerLoop c (outerFuel c st) st with
    | .fuel => .fuel
    | .err e => .err e
    | .ok st' => .ok (finalize st' includeReferred)

/-- `get_dependencies` (core.py:341-349) on the default path (no precomputed
table): resolve the one normalized group (`None` and the empty string fall
back to `"default"`) and raise `ProjectError` if it is missing from the
result. -/
def getDependencies (m : Manifest) (group : Option String) : Res (List Requirement) :=
  let g := normalizeName
    (match group with
     | none => "default"
     | some s => if s.isEmpty then "default" else s)
  match resolveDependencies m (some [g]) true with
  | .ok t =>
    match alGet t g with
    | some reqs => .ok reqs
    | none => .err (.groupNotExist g)
  | .err e => .err e
  | .fuel => .fuel

/-- `all_dependencies` (core.py:470-472): the full table of every declared
group, without inlining referred groups (`CompatibleSequence` is a plain
sequence wrapper). -/
def allDependencies (m : Manifest) : Res (List (String × List Requirement)) :=
  resolveDependencies m none false

/-- The first index of a still-unused string line that `req` matches: the
`matched_index = next(...)` generator of core.py:748-755, scanning `deps` in
order from position `start`. -/
def firstMatch (req : Requirement) (updated : List Nat) :
    List Item → Nat → Option Nat
  | [], _ => none
  | .str s :: rest, i =>
    if req.matches s && !updated.contains i then some i
    else firstMatch req updated rest (i + 1)
  | .dict _ :: rest, i => firstMatch req updated rest (i + 1)

/-- The update/append loop of `add_dependencies` (core.py:745-764): each input
requirement replaces the first matching not-yet-updated declared line in
place, or is appended; `parsed` mirrors `deps` (non-string items stay
`none`). -/
def addDepsLoop :
    List Item → List (Option Requirement) → List Nat → List Requirement →
    List Item × List (Option Requirement)
  | deps, parsed, _, [] => (deps, parsed)
  | deps, parsed, updated, req :: rest =>
    match firstMatch req updated deps 0 with
    | none =>
      addDepsLoop (deps ++ [.str req.as_line]) (parsed ++ [some req])
        (updated ++ [deps.length]) rest
    | some i =>
      addDepsLoop (deps.set i (.str req.as_line)) (parsed.set i (some req))
        (updated ++ [i]) rest

/-- `add_dependencies` (core.py:725-771), taking the group's existing declared
array (the handle `use_pyproject_dependencies` returns; the tomlkit handle
mechanics themselves are out of the modelled core).  Returns the new declared
array and the parsed requirement list, every entry's provenance set to exactly
the target group (core.py:768-771). -/
def addDependencies (existing : List Item) (requirements : List String)
    (toGroup : String) : List Item × List Requirement :=
  let parsed0 := existing.map (fun it =>
    match it with
    | .str s => some (parse_line s)
    | .dict _ => none)
  let res := addDepsLoop existing parsed0 [] (requirements.map parse_line)
  (res.1, (res.2.filterMap id).map (fun r => { r with groups := [toGroup] }))

/-! ## Concrete manifests used by the verification -/

/-- Two dev groups including each other: the cycle scenario. -/
def cycleManifest : Manifest :=
  { name := none, dependencies := [], optionalDependencies := [],
    devDependencies :=
      [("a", [.dict [("include-group", "b")]]),
       ("b", [.dict [("include-group", "a")]])] }

/-- Project `pkg`, an optional group `test` with `pytest`, and a dev group
`dev1` whose single item is the self-reference `pkg[test]`. -/
def selfRefManifest : Manifest :=
  { name := some "pkg", dependencies := [],
    optionalDependencies := [("test", [.str "pytest"])],
    devDependencies := [("dev1", [.str "pkg[test]"])] }

/-- Project `pkg` whose optional group `test` self-references the extra
`default`, which is not an optional group. -/
def defaultExtraManifest : Manifest :=
  { name := some "pkg", dependencies := [.str "foo"],
    optionalDependencies := [("test", [.str "pkg[default]"])],
    devDependencies := [] }

/-- Project `pkg` with a dev group self-referencing a non-existent extra. -/
def badExtraManifest : Manifest :=
  { name := some "pkg", dependencies := [],
    optionalDependencies := [],
    devDependencies := [("dev1", [.str "pkg[nope]"])] }

/-- A four-deep chain of dev-group includes `g → r → s → t`, with a single
plain dependency `pt` at the end. -/
def chainManifest : Manifest :=
  { name := none, dependencies := [], optionalDependencies := [],
    devDependencies :=
      [("g", [.dict [("include-group", "r")]]),
       ("r", [.dict [("include-group", "s")]]),
       ("s", [.dict [("include-group", "t")]]),
       ("t", [.str "pt"])] }

/-- A manifest declaring nothing beyond the empty default group. -/
def emptyManifest : Manifest :=
  { name := none, dependencies := [], optionalDependencies := [],
    devDependencies := [] }

/-- A default group declaring the same package name twice. -/
def dupManifest : Manifest :=
  { name := none, dependencies := [.str "foo>=1", .str "foo>=2"],
    optionalDependencies := [], devDependencies := [] }

/-- A dev group `g` including the dev group `r`. -/
def includeManifest : Manifest :=
  { name := none, dependencies := [], optionalDependencies := [],
    devDependencies :=
      [("g", [.dict [("include-group", "r")]]),
       ("r", [.str "x"])] }

/-- The identical editable line declared in the default group and in a dev
group (the default group also declares a plain dependency). -/
def editableManifest : Manifest :=
  { name := none, dependencies := [.str "-e ./local", .str "foo"],
    optionalDependencies := [], devDependencies := [("d", [.str "-e ./local"])] }

/-- The same group name declared both as an optional group and as a dev
group. -/
def shadowManifest : Manifest :=
  { name := none, dependencies := [],
    optionalDependencies := [("x", [.str "mdep"])],
    devDependencies := [("x", [.str "ddep"])] }

/-- Project `pkg` whose group `x` is declared both as an optional group and as
a dev group, the optional declaration self-referencing the extra `default`
(which is not an optional group). -/
def shadowDefaultManifest : Manifest :=
  { name := some "pkg", dependencies := [.str "foo"],
    optionalDependencies := [("x", [.str "pkg[default]"])],
    devDependencies := [("x", [.str "ddep"])] }

/-- The requirement `foo` after resolving `shadowDefaultManifest` from `x`. -/
def shadowFooReq : Requirement :=
  { editable := false, name := "foo", extras := [], specifier := "",
    line := "foo", groups := ["default", "x"] }

/-- The resolver context of `cycleManifest`. -/
def cycleCtx : Ctx := mkCtx cycleManifest

/-- The working state after seeding `cycleManifest` with requested `[a]`. -/
def cycleSeedState : RS :=
  { store := [], groupDeps := [("a", [])], extraDeps := [],
    referredGroups := [("a", ["b"])], requested := ["a"] }

/-- The working state after one full (progress-free) pass on
`cycleSeedState`. -/
def cyclePassState : RS :=
  { store := [], groupDeps := [("a", []), ("b", [])], extraDeps := [],
    referredGroups := [("a", ["b"]), ("b", ["a"])], requested := ["a", "b"] }

/-- The requirement `pt` as first parsed from `chainManifest`'s group `t`. -/
def ptReq0 : Requirement :=
  { editable := false, name := "pt", extras := [], specifier := "",
    line := "pt", groups := ["t"] }

/-- The requirement `x` after resolving `includeManifest` from `g`. -/
def xReq : Requirement :=
  { editable := false, name := "x", extras := [], specifier := "",
    line := "x", groups := ["r", "g"] }

/-- The plain requirement surviving in `editableManifest`'s default group. -/
def fooPlainReq : Requirement :=
  { editable := false, name := "foo", extras := [], specifier := "",
    line := "foo", groups := ["default"] }

/-- The editable requirement retained in `editableManifest`'s dev group. -/
def localEditableReq : Requirement :=
  { editable := true, name := "", extras := [], specifier := "",
    line := "-e ./local", groups := ["d"] }

/-- The requirement `shadowManifest`'s group `x` resolves to (from the
metadata table). -/
def mdepReq : Requirement :=
  { editable := false, name := "mdep", extras := [], specifier := "",
    line := "mdep", groups := ["x"] }

/-- The table `dupManifest` resolves to: two entries of the same name. -/
def dupTable : List (String × List Requirement) :=
  [("default",
    [{ editable := false, name := "foo", extras := [], specifier := ">=1",
       line := "foo>=1", groups := ["default"] },
     { editable := false, name := "foo", extras := [], specifier := ">=2",
       line := "foo>=2", groups := ["default"] }])]

/-! ## Association-list lemmas -/

@[simp] theorem alGet_nil {α : Type} (k : String) : alGet ([] : List (String × α)) k = none :=
  rfl

@[simp] theorem alGet_cons {α : Type} (p : String × α) (rest : List (String × α))
    (k : String) : alGet (p :: rest) k = if p.1 = k then some p.2 else alGet rest k := by
  by_cases hk : p.1 = k
  · simp only [alGet]
    rw [List.find?_cons_of_pos _ (by simpa using hk)]
    simp [hk]
  · simp only [alGet]
    rw [List.find?_cons_of_neg _ (by simpa using hk)]
    simp [hk, alGet]

@[simp] theorem alHas_nil {α : Type} (k : String) : alHas ([] : List (String × α)) k = false :=
  rfl

@[simp] theorem alHas_cons {α : Type} (p : String × α) (rest : List (String × α))
    (k : String) : alHas (p :: rest) k = (p.1 == k || alHas rest k) := by
  simp [alHas]

@[simp] theorem alKeys_nil {α : Type} : alKeys ([] : List (String × α)) = [] := rfl

@[simp] theorem alKeys_cons {α : Type} (p : String × α) (rest : List (String × α)) :
    alKeys (p :: rest) = p.1 :: alKeys rest := rfl

@[simp] theorem alSet_nil {α : Type} (k : String) (v : α) : alSet [] k v = [(k, v)] := rfl

@[simp] theorem alSet_cons {α : Type} (p : String × α) (rest : List (String × α))
    (k : String) (v : α) :
    alSet (p :: rest) k v = if p.1 = k then (k, v) :: rest else p :: alSet rest k v := by
  by_cases hk : p.1 = k <;> simp [alSet, hk]

@[simp] theorem alErase_nil {α : Type} (k : String) :
    alErase ([] : List (String × α)) k = [] := rfl

@[simp] theorem alErase_cons {α : Type} (p : String × α) (rest : List (String × α))
    (k : String) :
    alErase (p :: rest) k = if p.1 = k then alErase rest k else p :: alErase rest k := by
  by_cases hk : p.1 = k
  · simp [alErase, List.filter, hk]
  · have hb : (p.1 != k) = true := by simp [hk]
    simp [alErase, List.filter, hk, hb]

theorem alHas_iff_mem {α : Type} (l : List (String × α)) (k : String) :
    alHas l k = true ↔ k ∈ alKeys l := by
  induction l with
  | nil => simp
  | cons p rest ih =>
    by_cases hk : p.1 = k
    · simp [hk]
    · have hk2 : ¬ k = p.1 := fun h => hk h.symm
      simp [hk, hk2, ih]

theorem alGet_isSome_of_mem {α : Type} {l : List (String × α)} {k : String}
    (h : k ∈ alKeys l) : (alGet l k).isSome := by
  induction l with
  | nil => simp at h
  | cons p rest ih =>
    by_cases hk : p.1 = k
    · simp [hk]
    · simp only [alKeys_cons, List.mem_cons] at h
      rcases h with h | h
      · exact absurd h.symm hk
      · simpa [hk] using ih h

theorem mem_of_alGet_some {α : Type} {l : List (String × α)} {k : String} {v : α}
    (h : alGet l k = some v) : k ∈ alKeys l := by
  induction l with
  | nil => simp at h
  | cons p rest ih =>
    by_cases hk : p.1 = k
    · simp [hk]
    · simp only [alGet_cons, if_neg hk] at h
      simp [ih h]

theorem alGet_alSet_self {α : Type} (l : List (String × α)) (k : String) (v : α) :
    alGet (alSet l k v) k = some v := by
  induction l with
  | nil => simp
  | cons p rest ih => by_cases hk : p.1 = k <;> simp [hk, ih]

theorem alGet_alSet_ne {α : Type} (l : List (String × α)) (k k' : String) (v : α)
    (h : k' ≠ k) : alGet (alSet l k v) k' = alGet l k' := by
  induction l with
  | nil => simp [Ne.symm h]
  | cons p rest ih =>
    by_cases hk : p.1 = k
    · subst hk
      have hne : ¬ p.1 = k' := fun hh => h (hh ▸ rfl)
      simp [Ne.symm h, hne]
    · by_cases hk' : p.1 = k' <;> simp [hk, hk', ih, h]

theorem alSet_of_not_has {α : Type} (l : List (String × α)) (k : String) (v : α)
    (h : ¬ k ∈ alKeys l) : alSet l k v = l ++ [(k, v)] := by
  induction l with
  | nil => simp
  | cons p rest ih =>
    simp only [alKeys_cons, List.mem_cons, not_or] at h
    simp [Ne.symm h.1, ih h.2]

theorem alKeys_alSet_of_has {α : Type} (l : List (String × α)) (k : String) (v : α)
    (h : k ∈ alKeys l) : alKeys (alSet l k v) = alKeys l := by
  induction l with
  | nil => simp at h
  | cons p rest ih =>
    by_cases hk : p.1 = k
    · simp [hk]
    · simp only [alKeys_cons, List.mem_cons] at h
      rcases h with h | h
      · exact absurd h.symm hk
      · simp [hk, ih h]

theorem alKeys_alSet_of_not_has {α : Type} (l : List (String × α)) (k : String) (v : α)
    (h : ¬ k ∈ alKeys l) : alKeys (alSet l k v) = alKeys l ++ [k] := by
  rw [alSet_of_not_has l k v h]
  simp [alKeys]

theorem nodup_alKeys_alSet {α : Type} (l : List (String × α)) (k : String) (v : α)
    (h : (alKeys l).Nodup) : (alKeys (alSet l k v)).Nodup := by
  by_cases hk : k ∈ alKeys l
  · rwa [alKeys_alSet_of_has l k v hk]
  · rw [alKeys_alSet_of_not_has l k v hk]
    refine h.append (List.nodup_singleton k) ?_
    intro x hx hx'
    simp only [List.mem_singleton] at hx'
    exact hk (hx' ▸ hx)

theorem alKeys_alErase {α : Type} (l : List (String × α)) (k : String) :
    alKeys (alErase l k) = (alKeys l).filter (fun x => x ≠ k) := by
  induction l with
  | nil => simp
  | cons p rest ih =>
    by_cases hk : p.1 = k
    · simp [hk, ih]
    · simp [hk, ih]

theorem nodup_alKeys_alErase {α : Type} (l : List (String × α)) (k : String)
    (h : (alKeys l).Nodup) : (alKeys (alErase l k)).Nodup := by
  rw [alKeys_alErase]
  exact h.filter _

theorem alGet_alErase_ne {α : Type} (l : List (String × α)) (k k' : String)
    (h : k' ≠ k) : alGet (alErase l k) k' = alGet l k' := by
  induction l with
  | nil => simp
  | cons p rest ih =>
    by_cases hk : p.1 = k
    · subst hk
      have hne : ¬ p.1 = k' := fun hh => h (hh ▸ rfl)
      simp [hne, ih]
    · by_cases hk' : p.1 = k' <;> simp [hk, hk', ih, h]

theorem alGet_append_of_has {α : Type} (l l' : List (String × α)) (k : String)
    (h : k ∈ alKeys l) : alGet (l ++ l') k = alGet l k := by
  induction l with
  | nil => simp at h
  | cons p rest ih =>
    by_cases hk : p.1 = k
    · simp [hk]
    · simp only [alKeys_cons, List.mem_cons] at h
      rcases h with h | h
      · exact absurd h.symm hk
      · simp [hk, ih h]

/-! ## Pending-size and counting lemmas -/

theorem alErase_of_not_has {α : Type} (l : List (String × α)) (k : String)
    (h : ¬ k ∈ alKeys l) : alErase l k = l := by
  induction l with
  | nil => simp
  | cons p rest ih =>
    simp only [alKeys_cons, List.mem_cons, not_or] at h
    simp [Ne.symm h.1, ih h.2]

theorem pendL_append (l l' : List (String × List String)) :
    pendL (l ++ l') = pendL l + pendL l' := by
  simp [pendL]

theorem pendL_cons (p : String × List String) (l : List (String × List String)) :
    pendL (p :: l) = p.2.length + pendL l := by
  simp [pendL]

theorem pendL_alSet_of_get (l : List (String × List String)) (k : String)
    (v v0 : List String) (h : alGet l k = some v0) :
    pendL (alSet l k v) + v0.length = pendL l + v.length := by
  induction l with
  | nil => simp at h
  | cons p rest ih =>
    by_cases hk : p.1 = k
    · simp only [alGet_cons, if_pos hk] at h
      cases h
      simp [hk, pendL_cons]
      omega
    · simp only [alGet_cons, if_neg hk] at h
      simp only [alSet_cons, if_neg hk, pendL_cons]
      have := ih h
      omega

theorem pendL_alErase_of_get (l : List (String × List String)) (k : String)
    (v0 : List String) (h : alGet l k = some v0) (hnd : (alKeys l).Nodup) :
    pendL (alErase l k) + v0.length = pendL l := by
  induction l with
  | nil => simp at h
  | cons p rest ih =>
    simp only [alKeys_cons, List.nodup_cons] at hnd
    by_cases hk : p.1 = k
    · simp only [alGet_cons, if_pos hk] at h
      cases h
      rw [alErase_cons, if_pos hk, alErase_of_not_has rest k (hk ▸ hnd.1), pendL_cons]
      omega
    · simp only [alGet_cons, if_neg hk] at h
      rw [alErase_cons, if_neg hk, pendL_cons, pendL_cons]
      have := ih h hnd.2
      omega

theorem sum_map_ones (l : List String) : (l.map (fun _ => (1 : Nat))).sum = l.length := by
  induction l with
  | nil => rfl
  | cons a rest ih =>
    simp [ih]
    omega

theorem filter_map_sum_split (K : List String) (g : String) (p q : String → Bool)
    (f : String → Nat) (hg : g ∈ K) (hnd : K.Nodup)
    (hpq : ∀ x ∈ K, x ≠ g → p x = q x) (hp : p g = true) (hq : q g = false) :
    ((K.filter p).map f).sum = f g + ((K.filter q).map f).sum := by
  induction K with
  | nil => simp at hg
  | cons a rest ih =>
    rcases List.nodup_cons.mp hnd with ⟨hnr, hndr⟩
    rcases List.mem_cons.mp hg with hag | hgr
    · subst hag
      rw [List.filter_cons, List.filter_cons, hp, hq]
      simp only [if_pos rfl]
      have heq : rest.filter p = rest.filter q :=
        List.filter_congr (fun x hx => hpq x (List.mem_cons_of_mem _ hx)
          (fun he => hnr (he ▸ hx)))
      simp [heq]
    · have hane : a ≠ g := fun he => hnr (he ▸ hgr)
      have hpa := hpq a (List.mem_cons_self _ _) hane
      have ihr := ih hgr hndr (fun x hx hxg => hpq x (List.mem_cons_of_mem _ hx) hxg)
      rw [List.filter_cons, List.filter_cons, hpa]
      cases hqa : q a
      · rw [if_neg (by simp), if_neg (by simp)]
        exact ihr
      · rw [if_pos rfl, if_pos rfl]
        simp only [List.map_cons, List.sum_cons]
        rw [ihr]
        omega

theorem filter_length_split (K : List String) (g : String) (p q : String → Bool)
    (hg : g ∈ K) (hnd : K.Nodup) (hpq : ∀ x ∈ K, x ≠ g → p x = q x)
    (hp : p g = true) (hq : q g = false) :
    (K.filter p).length = (K.filter q).length + 1 := by
  have h := filter_map_sum_split K g p q (fun _ => 1) hg hnd hpq hp hq
  rw [sum_map_ones, sum_map_ones] at h
  simp only [h]
  omega

theorem mem_insertNew {l : List String} {s x : String} :
    x ∈ insertNew l s ↔ x ∈ l ∨ x = s := by
  by_cases h : l.contains s
  · simp only [insertNew, if_pos h]
    constructor
    · exact Or.inl
    · rintro (hx | rfl)
      · exact hx
      · simpa using h
  · have h2 : ¬ s ∈ l := by simpa using h
    simp [insertNew, if_neg h, h2]

theorem mem_foldl_insertNew {es : List String} {l : List String} {x : String}
    (h : x ∈ es.foldl insertNew l) : x ∈ l ∨ x ∈ es := by
  induction es generalizing l with
  | nil => exact Or.inl h
  | cons e rest ih =>
    rcases ih h with h' | h'
    · rcases mem_insertNew.mp h' with h'' | rfl
      · exact Or.inl h''
      · exact Or.inr (List.mem_cons_self _ _)
    · exact Or.inr (List.mem_cons_of_mem _ h')

/-! ## Post-conditions of the per-group expansion -/

theorem collectItems_referred (c : Ctx) (group : String) (in_md : Bool) :
    ∀ (items : List Item) (col ref cs rs : List String),
    collectItems c group in_md items col ref = .ok (cs, rs) →
    ∀ x ∈ rs, x ∈ ref ∨ x ∈ allowedKeys c in_md := by
  intro items
  induction items with
  | nil =>
    intro col ref cs rs h x hx
    simp only [collectItems] at h
    cases h
    exact Or.inl hx
  | cons item rest ih =>
    intro col ref cs rs h x hx
    match item with
    | .str s =>
      simp only [collectItems] at h
      split at h
      next name extras hse =>
        split at h
        next hpn =>
          split at h
          next hemp => exact ih _ _ _ _ h x hx
          next hemp =>
            split at h
            next hall =>
              rcases ih _ _ _ _ h x hx with hx' | hx'
              · rcases mem_foldl_insertNew hx' with hx'' | hx''
                · exact Or.inl hx''
                · refine Or.inr ?_
                  have hfil := List.isEmpty_iff.mp hall
                  have hmem := (List.filter_eq_nil_iff.mp hfil) x hx''
                  simp only [Bool.not_eq_true'] at hmem
                  simpa using hmem
              · exact Or.inr hx'
            next => cases h
        next hpn => exact ih _ _ _ _ h x hx
      next hse => exact ih _ _ _ _ h x hx
    | .dict pairs =>
      simp only [collectItems] at h
      split at h
      next => cases h
      next hmd =>
        split at h
        next hkeys =>
          split at h
          next hdev =>
            rcases ih _ _ _ _ h x hx with hx' | hx'
            · rcases mem_insertNew.mp hx' with hx'' | hx''
              · exact Or.inl hx''
              · refine Or.inr ?_
                have hdm : x ∈ alKeys c.dev := by
                  rw [hx'']
                  exact (alHas_iff_mem _ _).mp hdev
                simp [allowedKeys, hmd, hdm]
            · exact Or.inr hx'
          next => cases h
        next => cases h

theorem parse_line_line (l : String) : (parse_line l).line = l := by
  by_cases h : strStartsWith "-e " l = true <;> simp [parse_line, h]

theorem parseCollected_mem (group : String) (in_md : Bool) :
    ∀ (cs : List String) (r : Requirement), r ∈ parseCollected group in_md cs →
    ∃ s ∈ cs, r = { parse_line s with groups := [group] } := by
  intro cs
  induction cs with
  | nil => intro r hr; simp [parseCollected] at hr
  | cons line rest ih =>
    intro r hr
    simp only [parseCollected] at hr
    split at hr
    · rcases ih r hr with ⟨s, hs, hrs⟩
      exact ⟨s, List.mem_cons_of_mem _ hs, hrs⟩
    · rcases List.mem_cons.mp hr with hr' | hr'
      · exact ⟨line, List.mem_cons_self _ _, hr'⟩
      · rcases ih r hr' with ⟨s, hs, hrs⟩
        exact ⟨s, List.mem_cons_of_mem _ hs, hrs⟩

theorem parseCollected_groups (group : String) (in_md : Bool) (cs : List String)
    (r : Requirement) (hr : r ∈ parseCollected group in_md cs) :
    r.groups = [group] := by
  rcases parseCollected_mem group in_md cs r hr with ⟨s, _, rfl⟩
  rfl

theorem parseCollected_no_editable_in_md (group : String) :
    ∀ (cs : List String) (r : Requirement), r ∈ parseCollected group true cs →
    strStartsWith "-e " r.line = false := by
  intro cs
  induction cs with
  | nil => intro r hr; simp [parseCollected] at hr
  | cons line rest ih =>
    intro r hr
    simp only [parseCollected] at hr
    split at hr
    · exact ih r hr
    · next hcond =>
      rcases List.mem_cons.mp hr with hr' | hr'
      · subst hr'
        simp only [parse_line_line]
        simpa using hcond
      · exact ih r hr'

theorem collectItems_collected (c : Ctx) (group : String) (in_md : Bool) :
    ∀ (items : List Item) (col ref cs rs : List String),
    collectItems c group in_md items col ref = .ok (cs, rs) →
    ∀ s ∈ cs, s ∈ col ∨
      ∀ n es, stripExtras s = some (n, es) → (some (normalizeName n) == c.pn) = false := by
  intro items
  induction items with
  | nil =>
    intro col ref cs rs h s hs
    simp only [collectItems] at h
    cases h
    exact Or.inl hs
  | cons item rest ih =>
    intro col ref cs rs h s hs
    match item with
    | .str s0 =>
      simp only [collectItems] at h
      split at h
      next name extras hse =>
        split at h
        next hpn =>
          split at h
          next hemp => exact ih _ _ _ _ h s hs
          next hemp =>
            split at h
            next hall => exact ih _ _ _ _ h s hs
            next => cases h
        next hpn =>
          rcases ih _ _ _ _ h s hs with hs' | hs'
          · rcases List.mem_append.mp hs' with hs'' | hs''
            · exact Or.inl hs''
            · refine Or.inr ?_
              intro n es hne
              rcases List.mem_singleton.mp hs'' with rfl
              rw [hse] at hne
              cases hne
              simpa using hpn
          · exact Or.inr hs'
      next hse =>
        rcases ih _ _ _ _ h s hs with hs' | hs'
        · rcases List.mem_append.mp hs' with hs'' | hs''
          · exact Or.inl hs''
          · refine Or.inr ?_
            intro n es hne
            rcases List.mem_singleton.mp hs'' with rfl
            rw [hse] at hne
            cases hne
        · exact Or.inr hs'
    | .dict pairs =>
      simp only [collectItems] at h
      split at h
      next => cases h
      next hmd =>
        split at h
        next hkeys =>
          split at h
          next hdev => exact ih _ _ _ _ h s hs
          next => cases h
        next => cases h

theorem except_bind_ok {ε α β : Type} {x : Except ε α} {f : α → Except ε β} {b : β}
    (h : (x >>= f) = .ok b) : ∃ a, x = .ok a ∧ f a = .ok b := by
  cases x with
  | error e => simp [Bind.bind, Except.bind] at h
  | ok a => exact ⟨a, rfl, by simpa [Bind.bind, Except.bind] using h⟩

theorem getGroupDeps_referred {c : Ctx} {g : String} {reqs : List Requirement}
    {rs : List String} (h : getGroupDeps c g = .ok (reqs, rs)) :
    ∀ x ∈ rs, x ∈ allowedKeys c (alHas c.md g) := by
  simp only [getGroupDeps] at h
  split at h
  · cases h
  · next deps hdeps =>
    split at h
    · cases h
    · next pr hc =>
      cases h
      intro x hx
      rcases collectItems_referred c g (alHas c.md g) deps [] [] pr.1 pr.2 hc x
          hx with h' | h'
      · simp at h'
      · exact h'

theorem getGroupDeps_referred_kUniv {c : Ctx} {g : String} {reqs : List Requirement}
    {rs : List String} (h : getGroupDeps c g = .ok (reqs, rs)) :
    ∀ x ∈ rs, x ∈ kUniv c := by
  intro x hx
  have := getGroupDeps_referred h x hx
  simp only [allowedKeys] at this
  rw [kUniv, List.mem_dedup]
  split at this
  · exact List.mem_append_left _ this
  · exact this

theorem refCount_ok {c : Ctx} {g : String} {reqs : List Requirement}
    {rs : List String} (h : getGroupDeps c g = .ok (reqs, rs)) :
    refCount c g = rs.length := by
  simp [refCount, h]

theorem getGroupDeps_groups_init {c : Ctx} {g : String} {reqs : List Requirement}
    {rs : List String} (h : getGroupDeps c g = .ok (reqs, rs)) :
    ∀ r ∈ reqs, r.groups = [g] := by
  simp only [getGroupDeps] at h
  split at h
  · cases h
  · next deps hdeps =>
    split at h
    · cases h
    · next pr hc =>
      cases h
      intro r hr
      exact parseCollected_groups g (alHas c.md g) pr.1 r hr

theorem collectItems_dev_indep (c : Ctx) (dev2 : List (String × List Item))
    (group : String) :
    ∀ (items : List Item) (col ref : List String),
    collectItems c group true items col ref =
      collectItems { c with dev := dev2 } group true items col ref := by
  intro items
  induction items with
  | nil => intro col ref; rfl
  | cons item rest ih =>
    intro col ref
    match item with
    | .str s0 =>
      have hak : allowedKeys { c with dev := dev2 } true = allowedKeys c true := by
        simp [allowedKeys]
      simp only [collectItems]
      rw [hak]
      rcases hse : stripExtras s0 with _ | ⟨name, extras⟩
      · simp only [hse]
        exact ih _ _
      · simp only [hse]
        by_cases hpn : (some (normalizeName name) == c.pn) = true
        · rw [if_pos hpn, if_pos hpn]
          by_cases hemp : extras.isEmpty = true
          · rw [if_pos hemp, if_pos hemp]
            exact ih _ _
          · rw [if_neg hemp, if_neg hemp]
            by_cases hall : (List.filter (fun e => !(allowedKeys c true).contains e)
                (List.map normalizeName extras)).isEmpty = true
            · rw [if_pos hall, if_pos hall]
              exact ih _ _
            · rw [if_neg hall, if_neg hall]
        · rw [if_neg hpn, if_neg hpn]
          exact ih _ _
    | .dict pairs =>
      simp [collectItems]

theorem getGroupDeps_dev_indep (c : Ctx) (dev2 : List (String × List Item))
    (g : String) (h : alHas c.md g = true) :
    getGroupDeps c g = getGroupDeps { c with dev := dev2 } g := by
  simp only [getGroupDeps, h, if_true]
  rw [collectItems_dev_indep c dev2 g]

/-! ## Measure lemmas for the fixed-point loop -/

theorem contains_append_one (l : List String) (g x : String) :
    (l ++ [g]).contains x = (l.contains x || x == g) := by
  by_cases hx : x ∈ l
  · simp [hx]
  · by_cases hg : x = g <;> simp [hx, hg]

theorem slack_append (c : Ctx) (req : List String) (g : String)
    (hK : g ∈ kUniv c) (hreq : ¬ g ∈ req) :
    slack c req = refCount c g + slack c (req ++ [g]) := by
  have hnd : (kUniv c).Nodup := List.nodup_dedup _
  have h := filter_map_sum_split (kUniv c) g
    (fun x => !req.contains x) (fun x => !(req ++ [g]).contains x) (refCount c)
    hK hnd
    (fun x _ hxg => by
      simp only []
      rw [contains_append_one]
      have : (x == g) = false := beq_eq_false_iff_ne.mpr hxg
      simp [this])
    (by simp [hreq])
    (by simp)
  simpa [slack] using h

theorem ucount_append (c : Ctx) (req : List String) (g : String)
    (hK : g ∈ kUniv c) (hreq : ¬ g ∈ req) :
    ucount c req = ucount c (req ++ [g]) + 1 := by
  have hnd : (kUniv c).Nodup := List.nodup_dedup _
  have h := filter_length_split (kUniv c) g
    (fun x => !req.contains x) (fun x => !(req ++ [g]).contains x)
    hK hnd
    (fun x _ hxg => by
      simp only []
      rw [contains_append_one]
      have : (x == g) = false := beq_eq_false_iff_ne.mpr hxg
      simp [this])
    (by simp [hreq])
    (by simp)
  simpa [ucount] using h

theorem alGet_of_mem_nodup {α : Type} {l : List (String × α)} {p : String × α}
    (hp : p ∈ l) (hnd : (alKeys l).Nodup) : alGet l p.1 = some p.2 := by
  induction l with
  | nil => simp at hp
  | cons q rest ih =>
    rcases List.nodup_cons.mp hnd with ⟨hq, hndr⟩
    rcases List.mem_cons.mp hp with rfl | hp'
    · simp
    · have hne : q.1 ≠ p.1 := by
        intro he
        have hm : p.1 ∈ alKeys rest := List.mem_map_of_mem _ hp'
        rw [← he] at hm
        exact hq hm
      simp [hne, ih hp' hndr]

theorem mem_alSet {α : Type} {l : List (String × α)} {k : String} {v : α}
    {p : String × α} (hp : p ∈ alSet l k v) : p ∈ l ∨ p = (k, v) := by
  induction l with
  | nil => exact Or.inr (by simpa using hp)
  | cons q rest ih =>
    by_cases hk : q.1 = k
    · rw [alSet_cons, if_pos hk] at hp
      rcases List.mem_cons.mp hp with rfl | hp'
      · exact Or.inr rfl
      · exact Or.inl (List.mem_cons_of_mem _ hp')
    · rw [alSet_cons, if_neg hk] at hp
      rcases List.mem_cons.mp hp with rfl | hp'
      · exact Or.inl (List.mem_cons_self _ _)
      · rcases ih hp' with h' | h'
        · exact Or.inl (List.mem_cons_of_mem _ h')
        · exact Or.inr h'

theorem mem_alErase {α : Type} {l : List (String × α)} {k : String}
    {p : String × α} (hp : p ∈ alErase l k) : p ∈ l :=
  List.mem_of_mem_filter hp

@[simp] theorem resolveEdge_referredGroups (st : RS) (g ref : String) :
    (resolveEdge st g ref).referredGroups = st.referredGroups := rfl

@[simp] theorem resolveEdge_requested (st : RS) (g ref : String) :
    (resolveEdge st g ref).requested = st.requested := rfl

@[simp] theorem resolveEdge_groupDeps (st : RS) (g ref : String) :
    (resolveEdge st g ref).groupDeps = st.groupDeps := rfl

/-- What one `expandIfNew` step does to the quantities the termination
argument tracks. -/
theorem expandIfNew_spec {c : Ctx} {st : RS} {ref : String} {st1 : RS}
    {np : Option (String × List String)}
    (h : expandIfNew c st ref = .ok (st1, np))
    (hK : ref ∈ kUniv c)
    (hRsub : ∀ k ∈ alKeys st.referredGroups, k ∈ st.requested) :
    st1.referredGroups = st.referredGroups ++ np.toList ∧
    (∀ p ∈ np.toList, ∀ r ∈ p.2, r ∈ kUniv c) ∧
    pendL np.toList + slack c st1.requested ≤ slack c st.requested ∧
    np.toList.length + ucount c st1.requested ≤ ucount c st.requested ∧
    (∀ x ∈ st.requested, x ∈ st1.requested) ∧
    (∀ k ∈ alKeys st1.referredGroups, k ∈ st1.requested) ∧
    ((alKeys st.referredGroups).Nodup → (alKeys st1.referredGroups).Nodup) := by
  simp only [expandIfNew] at h
  split at h
  · next hin =>
    cases h
    refine ⟨by simp, by simp, ?_, ?_, fun x hx => hx, hRsub, fun hnd => hnd⟩
    · simp [pendL]
    · simp
  · next hin =>
    have hreq : ¬ ref ∈ st.requested := by simpa using hin
    split at h
    · cases h
    · next pr hgd =>
      have hrsK : ∀ x ∈ pr.2, x ∈ kUniv c := getGroupDeps_referred_kUniv hgd
      have hrc : refCount c ref = pr.2.length := refCount_ok hgd
      have hsl := slack_append c st.requested ref hK hreq
      have huc := ucount_append c st.requested ref hK hreq
      have hfresh : ¬ ref ∈ alKeys st.referredGroups :=
        fun hm => hreq (hRsub ref hm)
      split at h
      · next hemp =>
        cases h
        refine ⟨by simp, by simp, ?_, ?_, ?_, ?_, fun hnd => hnd⟩
        · simp only [pendL, Option.toList_none, List.map_nil, List.sum_nil]
          omega
        · simp only [Option.toList_none, List.length_nil]
          omega
        · intro x hx
          exact List.mem_append_left _ hx
        · intro k hk
          exact List.mem_append_left _ (hRsub k hk)
      · next hemp =>
        cases h
        rw [alSet_of_not_has _ _ _ hfresh]
        refine ⟨rfl, ?_, ?_, ?_, ?_, ?_, ?_⟩
        · intro p hp r hr
          rcases List.mem_singleton.mp (by simpa using hp) with rfl
          exact hrsK r hr
        · simp only [Option.toList_some, pendL, List.map_cons, List.map_nil,
            List.sum_cons, List.sum_nil]
          omega
        · simp only [Option.toList_some, List.length_singleton]
          omega
        · intro x hx
          exact List.mem_append_left _ hx
        · intro k hk
          rw [alKeys, List.map_append] at hk
          rcases List.mem_append.mp hk with hk' | hk'
          · exact List.mem_append_left _ (hRsub k hk')
          · rcases List.mem_singleton.mp (by simpa using hk') with rfl
            exact List.mem_append_right _ (List.mem_singleton.mpr rfl)
        · intro hnd
          rw [alKeys, List.map_append]
          refine List.Nodup.append hnd (by simp) ?_
          intro x hx hx'
          rcases List.mem_singleton.mp (by simpa using hx') with rfl
          exact hfresh hx

/-- `1` when the progress flag flips from `false` to `true`. -/
def flip01 (upd' upd : Bool) : Nat := if upd' && !upd then 1 else 0

theorem flip01_le_one (a b : Bool) : flip01 a b ≤ 1 := by
  cases a <;> cases b <;> decide

theorem flip01_self (a : Bool) : flip01 a a = 0 := by
  cases a <;> decide

theorem flip01_true_right (a : Bool) : flip01 a true = 0 := by
  cases a <;> decide

/-- What processing one group's pending refs does to the measure: new pairs
are exactly the new pending entries, appended; the measure does not grow; one
unit of `remaining` slack is consumed when the progress flag flips. -/
theorem procRefs_spec (c : Ctx) (group : String) :
    ∀ (refs : List String) (st : RS) (nw : List (String × List String))
      (rem : List String) (upd : Bool) (st' : RS)
      (nw' : List (String × List String)) (rem' : List String) (upd' : Bool),
    procRefs c group st nw rem upd refs = .ok (st', nw', rem', upd') →
    (∀ r ∈ refs, r ∈ kUniv c) →
    (∀ k ∈ alKeys st.referredGroups, k ∈ st.requested) →
    ∃ Δ, nw' = nw ++ Δ ∧
      st'.referredGroups = st.referredGroups ++ Δ ∧
      (∀ p ∈ Δ, ∀ r ∈ p.2, r ∈ kUniv c) ∧
      pendL Δ + slack c st'.requested ≤ slack c st.requested ∧
      Δ.length + ucount c st'.requested ≤ ucount c st.requested ∧
      (∀ x ∈ st.requested, x ∈ st'.requested) ∧
      (∀ k ∈ alKeys st'.referredGroups, k ∈ st'.requested) ∧
      ((alKeys st.referredGroups).Nodup → (alKeys st'.referredGroups).Nodup) ∧
      rem'.length + flip01 upd' upd ≤ rem.length + refs.length ∧
      (upd = true → upd' = true) ∧
      (∀ x ∈ rem', x ∈ rem ∨ x ∈ refs) := by
  intro refs
  induction refs with
  | nil =>
    intro st nw rem upd st' nw' rem' upd' h hrefs hRsub
    simp only [procRefs] at h
    cases h
    refine ⟨[], by simp, by simp, by simp, ?_, ?_, fun x hx => hx, hRsub,
      fun hnd => hnd, ?_, fun hu => hu, fun x hx => Or.inl hx⟩
    · simp [pendL]
    · simp
    · rw [flip01_self]
      simp
  | cons ref refs ih =>
    intro st nw rem upd st' nw' rem' upd' h hrefs hRsub
    have hKref : ref ∈ kUniv c := hrefs ref (List.mem_cons_self _ _)
    have hrefs' : ∀ r ∈ refs, r ∈ kUniv c :=
      fun r hr => hrefs r (List.mem_cons_of_mem _ hr)
    simp only [procRefs] at h
    split at h
    · cases h
    · next pr heif =>
      obtain ⟨hE1, hE2, hE3, hE4, hE5, hE6, hE7⟩ :=
        expandIfNew_spec heif hKref hRsub
      split at h
      · -- the ref is still pending: defer it
        obtain ⟨Δ1, hD1, hD2, hD3, hD4, hD5, hD6, hD7, hD8, hD9, hD10, hD11⟩ :=
          ih pr.1 (nw ++ pr.2.toList) (rem ++ [ref]) upd st' nw' rem' upd'
            h hrefs' hE6
        refine ⟨pr.2.toList ++ Δ1, ?_, ?_, ?_, ?_, ?_, ?_, hD7, ?_, ?_, hD10, ?_⟩
        · rw [hD1, List.append_assoc]
        · rw [hD2, hE1, List.append_assoc]
        · intro p hp
          rcases List.mem_append.mp hp with hp' | hp'
          · exact hE2 p hp'
          · exact hD3 p hp'
        · rw [pendL_append]
          omega
        · rw [List.length_append]
          omega
        · intro x hx
          exact hD6 x (hE5 x hx)
        · intro hnd
          exact hD8 (hE7 hnd)
        · simp only [List.length_append, List.length_singleton, List.length_cons,
            List.length_nil] at hD9 ⊢
          omega
        · intro x hx
          rcases hD11 x hx with hx' | hx'
          · rcases List.mem_append.mp hx' with hx'' | hx''
            · exact Or.inl hx''
            · exact Or.inr (by
                rcases List.mem_singleton.mp hx'' with rfl
                exact List.mem_cons_self _ _)
          · exact Or.inr (List.mem_cons_of_mem _ hx')
      · -- the ref is resolved: inline and stamp, then continue
        obtain ⟨Δ1, hD1, hD2, hD3, hD4, hD5, hD6, hD7, hD8, hD9, hD10, hD11⟩ :=
          ih (resolveEdge pr.1 group ref) (nw ++ pr.2.toList) rem true st' nw'
            rem' upd' h hrefs'
            (by
              rw [resolveEdge_referredGroups, resolveEdge_requested]
              exact hE6)
        simp only [resolveEdge_referredGroups, resolveEdge_requested]
          at hD2 hD4 hD5 hD6 hD7 hD8
        refine ⟨pr.2.toList ++ Δ1, ?_, ?_, ?_, ?_, ?_, ?_, hD7, ?_, ?_, ?_, ?_⟩
        · rw [hD1, List.append_assoc]
        · rw [hD2, hE1, List.append_assoc]
        · intro p hp
          rcases List.mem_append.mp hp with hp' | hp'
          · exact hE2 p hp'
          · exact hD3 p hp'
        · rw [pendL_append]
          omega
        · rw [List.length_append]
          omega
        · intro x hx
          exact hD6 x (hE5 x hx)
        · intro hnd
          exact hD8 (hE7 hnd)
        · have hle := flip01_le_one upd' upd
          rw [flip01_true_right] at hD9
          simp only [List.length_cons]
          omega
        · intro _
          exact hD10 rfl
        · intro x hx
          rcases hD11 x hx with hx' | hx'
          · exact Or.inl hx'
          · exact Or.inr (List.mem_cons_of_mem _ hx')

theorem alGet_append_right {α : Type} (l l' : List (String × α)) (k : String)
    (h : ¬ k ∈ alKeys l) : alGet (l ++ l') k = alGet l' k := by
  induction l with
  | nil => simp
  | cons p rest ih =>
    simp only [alKeys_cons, List.mem_cons, not_or] at h
    have hne : ¬ p.1 = k := fun he => h.1 he.symm
    simp only [List.cons_append, alGet_cons, if_neg hne]
    exact ih h.2

theorem flip01_trans {a b d : Bool} (h1 : a = true → b = true)
    (h2 : b = true → d = true) : flip01 d a ≤ flip01 d b + flip01 b a := by
  cases a <;> cases b <;> cases d <;> simp_all [flip01]

@[simp] theorem writeBack_requested (st : RS) (g : String) (rem : List String) :
    (writeBack st g rem).requested = st.requested := by
  unfold writeBack
  split <;> rfl

@[simp] theorem writeBack_groupDeps (st : RS) (g : String) (rem : List String) :
    (writeBack st g rem).groupDeps = st.groupDeps := by
  unfold writeBack
  split <;> rfl

@[simp] theorem writeBack_extraDeps (st : RS) (g : String) (rem : List String) :
    (writeBack st g rem).extraDeps = st.extraDeps := by
  unfold writeBack
  split <;> rfl

/-- What the write-back of a processed group's remaining refs does to the
pending map. -/
theorem writeBack_spec (st : RS) (group : String) (remaining refs : List String)
    (hget : alGet st.referredGroups group = some refs)
    (hnd : (alKeys st.referredGroups).Nodup) :
    pendL (writeBack st group remaining).referredGroups + refs.length =
      pendL st.referredGroups + remaining.length ∧
    (alKeys (writeBack st group remaining).referredGroups).Nodup ∧
    (∀ k ∈ alKeys (writeBack st group remaining).referredGroups,
      k ∈ alKeys st.referredGroups) ∧
    (∀ p ∈ (writeBack st group remaining).referredGroups,
      p ∈ st.referredGroups ∨ p = (group, remaining)) ∧
    (∀ k, k ≠ group →
      alGet (writeBack st group remaining).referredGroups k =
        alGet st.referredGroups k) := by
  unfold writeBack
  split
  · next hemp =>
    have hrem : remaining = [] := List.isEmpty_iff.mp hemp
    subst hrem
    refine ⟨?_, nodup_alKeys_alErase _ _ hnd, ?_, ?_, ?_⟩
    · have := pendL_alErase_of_get st.referredGroups group refs hget hnd
      simpa using this
    · intro k hk
      rw [alKeys_alErase] at hk
      exact List.mem_of_mem_filter hk
    · intro p hp
      exact Or.inl (mem_alErase hp)
    · intro k hk
      exact alGet_alErase_ne _ _ _ hk
  · next hemp =>
    have hmem : group ∈ alKeys st.referredGroups := mem_of_alGet_some hget
    refine ⟨?_, nodup_alKeys_alSet _ _ _ hnd, ?_, ?_, ?_⟩
    · exact pendL_alSet_of_get st.referredGroups group remaining refs hget
    · intro k hk
      rwa [alKeys_alSet_of_has _ _ _ hmem] at hk
    · intro p hp
      exact mem_alSet hp
    · intro k hk
      exact alGet_alSet_ne _ _ _ _ hk

/-- One pass neither exhausts its fuel (given the worklist bound) nor grows
the measure; a pass that flips the progress flag shrinks it. -/
theorem passStep_spec (c : Ctx) :
    ∀ (fuel : Nat) (st : RS) (upd : Bool) (work : List (String × List String)),
    (∀ p ∈ work, alGet st.referredGroups p.1 = some p.2) →
    ((work.map (fun p => p.1)).Nodup) →
    (∀ p ∈ work, ∀ r ∈ p.2, r ∈ kUniv c) →
    ((alKeys st.referredGroups).Nodup) →
    (∀ k ∈ alKeys st.referredGroups, k ∈ st.requested) →
    (∀ p ∈ st.referredGroups, ∀ r ∈ p.2, r ∈ kUniv c) →
    (work.length + ucount c st.requested ≤ fuel) →
    passStep c fuel st upd work ≠ .inr () ∧
    (∀ st' upd', passStep c fuel st upd work = .inl (.ok (st', upd')) →
      pendL st'.referredGroups + slack c st'.requested + flip01 upd' upd ≤
        pendL st.referredGroups + slack c st.requested ∧
      (alKeys st'.referredGroups).Nodup ∧
      (∀ k ∈ alKeys st'.referredGroups, k ∈ st'.requested) ∧
      (∀ p ∈ st'.referredGroups, ∀ r ∈ p.2, r ∈ kUniv c) ∧
      (∀ x ∈ st.requested, x ∈ st'.requested) ∧
      (upd = true → upd' = true)) := by
  intro fuel
  induction fuel with
  | zero =>
    intro st upd work hW hWnd hK hNd hRsub hV hfuel
    cases work with
    | nil =>
      constructor
      · simp [passStep]
      · intro st' upd' h
        simp only [passStep, Sum.inl.injEq, Except.ok.injEq, Prod.mk.injEq] at h
        obtain ⟨rfl, rfl⟩ := h
        exact ⟨by simp [flip01_self], hNd, hRsub, hV, fun x hx => hx, fun hu => hu⟩
    | cons pair rest =>
      simp at hfuel
  | succ fuel ih =>
    intro st upd work hW hWnd hK hNd hRsub hV hfuel
    cases work with
    | nil =>
      constructor
      · simp [passStep]
      · intro st' upd' h
        simp only [passStep, Sum.inl.injEq, Except.ok.injEq, Prod.mk.injEq] at h
        obtain ⟨rfl, rfl⟩ := h
        exact ⟨by simp [flip01_self], hNd, hRsub, hV, fun x hx => hx, fun hu => hu⟩
    | cons pair rest =>
      obtain ⟨group, refs⟩ := pair
      have hWnd' := hWnd
      rw [List.map_cons] at hWnd'
      obtain ⟨hgrest, hndrest⟩ := List.nodup_cons.mp hWnd'
      have hWhead : alGet st.referredGroups group = some refs :=
        hW (group, refs) (List.mem_cons_self _ _)
      have hgmem : group ∈ alKeys st.referredGroups := mem_of_alGet_some hWhead
      have hKhead : ∀ r ∈ refs, r ∈ kUniv c :=
        hK (group, refs) (List.mem_cons_self _ _)
      cases hpr : procRefs c group st [] [] upd refs with
      | error e =>
        constructor
        · simp [passStep, hpr]
        · intro st' upd' h
          simp [passStep, hpr] at h
      | ok quad =>
        obtain ⟨Δ, hD1, hD2, hD3, hD4, hD5, hD6, hD7, hD8, hD9, hD10, hD11⟩ :=
          procRefs_spec c group refs st [] [] upd quad.1 quad.2.1 quad.2.2.1
            quad.2.2.2 (by rw [hpr]) hKhead hRsub
        simp only [List.nil_append] at hD1
        have hNd1 : (alKeys quad.1.referredGroups).Nodup := hD8 hNd
        have hget1 : alGet quad.1.referredGroups group = some refs := by
          rw [hD2]
          rw [alGet_append_of_has _ _ _ hgmem]
          exact hWhead
        obtain ⟨hP1, hP2, hP3, hP4, hP5⟩ :=
          writeBack_spec quad.1 group quad.2.2.1 refs hget1 hNd1
        have hDdisj : ∀ k ∈ alKeys Δ, ¬ k ∈ alKeys st.referredGroups := by
          have := hNd1
          rw [hD2, alKeys, List.map_append] at this
          intro k hk hk'
          exact (List.disjoint_of_nodup_append this) hk' hk
        have hDnd : (alKeys Δ).Nodup := by
          have := hNd1
          rw [hD2, alKeys, List.map_append] at this
          exact (List.nodup_append.mp this).2.1
        -- the state handed to the recursive call
        set st2 := writeBack quad.1 group quad.2.2.1 with hst2
        have hreq2 : st2.requested = quad.1.requested := writeBack_requested _ _ _
        -- worklist invariants for the tail of the pass
        have hW2 : ∀ p ∈ rest ++ Δ, alGet st2.referredGroups p.1 = some p.2 := by
          intro p hp
          rcases List.mem_append.mp hp with hp' | hp'
          · have hpg : p.1 ≠ group := by
              intro he
              have hmm : group ∈ rest.map (fun q => q.1) := by
                rw [← he]
                exact List.mem_map_of_mem _ hp'
              exact hgrest hmm
            rw [hP5 p.1 hpg, hD2,
              alGet_append_of_has _ _ _ (mem_of_alGet_some (hW p (List.mem_cons_of_mem _ hp')))]
            exact hW p (List.mem_cons_of_mem _ hp')
          · have hpΔ : p.1 ∈ alKeys Δ := List.mem_map_of_mem _ hp'
            have hpg : p.1 ≠ group := fun he => hDdisj p.1 hpΔ (he ▸ hgmem)
            rw [hP5 p.1 hpg, hD2, alGet_append_right _ _ _ (hDdisj p.1 hpΔ)]
            exact alGet_of_mem_nodup hp' hDnd
        have hWnd2 : ((rest ++ Δ).map (fun p => p.1)).Nodup := by
          rw [List.map_append]
          refine List.Nodup.append hndrest hDnd ?_
          intro k hk hk'
          have hkst : k ∈ alKeys st.referredGroups := by
            rcases List.mem_map.mp hk with ⟨p, hp, rfl⟩
            exact mem_of_alGet_some (hW p (List.mem_cons_of_mem _ hp))
          exact hDdisj k hk' hkst
        have hK2 : ∀ p ∈ rest ++ Δ, ∀ r ∈ p.2, r ∈ kUniv c := by
          intro p hp
          rcases List.mem_append.mp hp with hp' | hp'
          · exact hK p (List.mem_cons_of_mem _ hp')
          · exact hD3 p hp'
        have hRsub2 : ∀ k ∈ alKeys st2.referredGroups, k ∈ st2.requested := by
          intro k hk
          rw [hreq2]
          exact hD7 k (hP3 k hk)
        have hV2 : ∀ p ∈ st2.referredGroups, ∀ r ∈ p.2, r ∈ kUniv c := by
          intro p hp
          rcases hP4 p hp with hp' | hp'
          · rw [hD2] at hp'
            rcases List.mem_append.mp hp' with hp'' | hp''
            · exact hV p hp''
            · exact hD3 p hp''
          · subst hp'
            intro r hr
            rcases hD11 r hr with hr' | hr'
            · simp at hr'
            · exact hKhead r hr'
        have hfuel2 : (rest ++ Δ).length + ucount c st2.requested ≤ fuel := by
          rw [List.length_append, hreq2]
          simp only [List.length_cons] at hfuel
          omega
        obtain ⟨hI1, hI2⟩ := ih st2 quad.2.2.2 (rest ++ Δ) hW2 hWnd2 hK2
          (hP2) hRsub2 hV2 hfuel2
        have hstep : passStep c (fuel + 1) st upd ((group, refs) :: rest) =
            passStep c fuel st2 quad.2.2.2 (rest ++ Δ) := by
          simp only [passStep, hpr, hD1, hst2]
        constructor
        · rw [hstep]
          exact hI1
        · intro st' upd' h
          rw [hstep] at h
          obtain ⟨hJ1, hJ2, hJ3, hJ4, hJ5, hJ6⟩ := hI2 st' upd' h
          refine ⟨?_, hJ2, hJ3, hJ4, ?_, ?_⟩
          · -- measure: expansion ledger + write-back + the recursive bound
            have hwb := hP1
            have hpend1 : pendL quad.1.referredGroups =
                pendL st.referredGroups + pendL Δ := by
              rw [hD2, pendL_append]
            have hflip : flip01 upd' upd ≤
                flip01 upd' quad.2.2.2 + flip01 quad.2.2.2 upd :=
              flip01_trans hD10 hJ6
            have hrem : quad.2.2.1.length + flip01 quad.2.2.2 upd ≤ refs.length := by
              simpa using hD9
            rw [hreq2] at hJ1
            omega
          · intro x hx
            exact hJ5 x (by rw [hreq2]; exact hD6 x hx)
          · intro hu
            exact hJ6 (hD10 hu)

/-- The outer fixed-point loop never exhausts its fuel when given one unit per
measure point plus one. -/
theorem outerLoop_no_fuel (c : Ctx) :
    ∀ (fuel : Nat) (st : RS),
    ((alKeys st.referredGroups).Nodup) →
    (∀ k ∈ alKeys st.referredGroups, k ∈ st.requested) →
    (∀ p ∈ st.referredGroups, ∀ r ∈ p.2, r ∈ kUniv c) →
    (pendL st.referredGroups + slack c st.requested + 1 ≤ fuel) →
    outerLoop c fuel st ≠ .fuel := by
  intro fuel
  induction fuel with
  | zero =>
    intro st _ _ _ hfuel
    omega
  | succ fuel ih =>
    intro st hNd hRsub hV hfuel
    by_cases hemp : st.referredGroups.isEmpty
    · simp [outerLoop, hemp]
    · have hW : ∀ p ∈ st.referredGroups, alGet st.referredGroups p.1 = some p.2 :=
        fun p hp => alGet_of_mem_nodup hp hNd
      obtain ⟨hI1, hI2⟩ := passStep_spec c (innerFuel c st) st false
        st.referredGroups hW hNd hV hNd hRsub hV (le_of_eq rfl)
      simp only [outerLoop, hemp, Bool.false_eq_true, if_false]
      cases hps : passStep c (innerFuel c st) st false st.referredGroups with
      | inr u =>
        cases u
        exact absurd hps hI1
      | inl res =>
        cases res with
        | error e => simp
        | ok pr =>
          obtain ⟨st', upd'⟩ := pr
          obtain ⟨hJ1, hJ2, hJ3, hJ4, hJ5, _⟩ := hI2 st' upd' hps
          cases upd' with
          | false => simp
          | true =>
            simp only [if_true]
            refine ih st' hJ2 hJ3 hJ4 ?_
            simp only [flip01, Bool.and_true, Bool.not_false, if_true] at hJ1
            omega

theorem mem_alKeys_alSet {α : Type} (l : List (String × α)) (k' : String) (v : α)
    {k : String} (h : k ∈ alKeys l) : k ∈ alKeys (alSet l k' v) := by
  by_cases h' : k' ∈ alKeys l
  · rwa [alKeys_alSet_of_has _ _ _ h']
  · rw [alKeys_alSet_of_not_has _ _ _ h']
    exact List.mem_append_left _ h

theorem self_mem_alKeys_alSet {α : Type} (l : List (String × α)) (k : String)
    (v : α) : k ∈ alKeys (alSet l k v) := by
  by_cases h : k ∈ alKeys l
  · rwa [alKeys_alSet_of_has _ _ _ h]
  · rw [alKeys_alSet_of_not_has _ _ _ h]
    simp

theorem mem_alKeys_alSet_inv {α : Type} {l : List (String × α)} {k' : String}
    {v : α} {k : String} (h : k ∈ alKeys (alSet l k' v)) :
    k ∈ alKeys l ∨ k = k' := by
  by_cases h' : k' ∈ alKeys l
  · rw [alKeys_alSet_of_has _ _ _ h'] at h
    exact Or.inl h
  · rw [alKeys_alSet_of_not_has _ _ _ h'] at h
    rcases List.mem_append.mp h with h1 | h1
    · exact Or.inl h1
    · exact Or.inr (List.mem_singleton.mp h1)

/-- The invariants the seeding loop establishes for the fixed-point loop. -/
theorem seedGo_spec (c : Ctx) :
    ∀ (l : List String) (st st' : RS),
    seedGo c st l = .ok st' →
    (∀ g ∈ l, g ∈ st.requested) →
    st'.requested = st.requested ∧
    ((alKeys st.referredGroups).Nodup → (alKeys st'.referredGroups).Nodup) ∧
    ((∀ k ∈ alKeys st.referredGroups, k ∈ st.requested) →
      ∀ k ∈ alKeys st'.referredGroups, k ∈ st.requested) ∧
    ((∀ p ∈ st.referredGroups, ∀ r ∈ p.2, r ∈ kUniv c) →
      ∀ p ∈ st'.referredGroups, ∀ r ∈ p.2, r ∈ kUniv c) ∧
    ((alKeys st.groupDeps).Nodup → (alKeys st'.groupDeps).Nodup) ∧
    (∀ g ∈ alKeys st.groupDeps, g ∈ alKeys st'.groupDeps) ∧
    (∀ g ∈ l, g ∈ alKeys st'.groupDeps) := by
  intro l
  induction l with
  | nil =>
    intro st st' h hl
    simp only [seedGo] at h
    cases h
    exact ⟨rfl, fun hnd => hnd, fun hs => hs, fun hv => hv, fun hnd => hnd,
      fun g hg => hg, by simp⟩
  | cons group rest ih =>
    intro st st' h hl
    have hgreq : group ∈ st.requested := hl group (List.mem_cons_self _ _)
    simp only [seedGo] at h
    split at h
    · cases h
    · next pr hgd =>
      have hrsK : ∀ x ∈ pr.2, x ∈ kUniv c := getGroupDeps_referred_kUniv hgd
      split at h
      · next hemp =>
        obtain ⟨hQ1, hQ2, hQ3, hQ4, hQ5, hQ6, hQ7⟩ := ih _ _ h
          (fun g hg => hl g (List.mem_cons_of_mem _ hg))
        refine ⟨hQ1, hQ2, hQ3, hQ4, ?_, ?_, ?_⟩
        · intro hnd
          exact hQ5 (nodup_alKeys_alSet _ _ _ hnd)
        · intro g hg
          exact hQ6 g (mem_alKeys_alSet _ _ _ hg)
        · intro g hg
          rcases List.mem_cons.mp hg with rfl | hg'
          · exact hQ6 g (self_mem_alKeys_alSet _ _ _)
          · exact hQ7 g hg'
      · next hemp =>
        obtain ⟨hQ1, hQ2, hQ3, hQ4, hQ5, hQ6, hQ7⟩ := ih _ _ h
          (fun g hg => hl g (List.mem_cons_of_mem _ hg))
        refine ⟨hQ1, ?_, ?_, ?_, ?_, ?_, ?_⟩
        · intro hnd
          exact hQ2 (nodup_alKeys_alSet _ _ _ hnd)
        · intro hsub k hk
          refine hQ3 ?_ k hk
          intro k' hk'
          rcases mem_alKeys_alSet_inv hk' with h1 | rfl
          · exact hsub k' h1
          · exact hgreq
        · intro hv p hp
          refine hQ4 ?_ p hp
          intro q hq r hr
          rcases mem_alSet hq with h1 | rfl
          · exact hv q h1 r hr
          · exact hrsK r hr
        · intro hnd
          exact hQ5 (nodup_alKeys_alSet _ _ _ hnd)
        · intro g hg
          exact hQ6 g (mem_alKeys_alSet _ _ _ hg)
        · intro g hg
          rcases List.mem_cons.mp hg with rfl | hg'
          · exact hQ6 g (self_mem_alKeys_alSet _ _ _)
          · exact hQ7 g hg'

/-- The resolver computes enough fuel: the loop never exhausts it. -/
theorem resolveDependencies_ne_fuel (m : Manifest)
    (requestedGroups : Option (List String)) (includeReferred : Bool) :
    resolveDependencies m requestedGroups includeReferred ≠ .fuel := by
  simp only [resolveDependencies]
  cases hseed : seed (mkCtx m) ((requestedGroups.getD (iterGroups m)).map normalizeName) with
  | error e => simp
  | ok st =>
    obtain ⟨hQ1, hQ2, hQ3, hQ4, hQ5, hQ6, hQ7⟩ :=
      seedGo_spec (mkCtx m) ((requestedGroups.getD (iterGroups m)).map normalizeName)
        _ st hseed (fun g hg => hg)
    have hNd : (alKeys st.referredGroups).Nodup := hQ2 (by simp)
    have hRsub : ∀ k ∈ alKeys st.referredGroups, k ∈ st.requested := by
      intro k hk
      rw [hQ1]
      exact hQ3 (by simp) k hk
    have hV : ∀ p ∈ st.referredGroups, ∀ r ∈ p.2, r ∈ kUniv (mkCtx m) :=
      hQ4 (by simp)
    have hout := outerLoop_no_fuel (mkCtx m) (outerFuel (mkCtx m) st) st hNd hRsub hV
      (le_of_eq rfl)
    cases houter : outerLoop (mkCtx m) (outerFuel (mkCtx m) st) st with
    | fuel => exact absurd houter hout
    | err e => simp [houter]
    | ok st' => simp [houter]

/-! ## Preservation of the working table's keys -/

theorem expandIfNew_groupDeps {c : Ctx} {st : RS} {ref : String} {st1 : RS}
    {np : Option (String × List String)}
    (h : expandIfNew c st ref = .ok (st1, np)) :
    ((alKeys st.groupDeps).Nodup → (alKeys st1.groupDeps).Nodup) ∧
    (∀ g ∈ alKeys st.groupDeps, g ∈ alKeys st1.groupDeps) ∧
    ((∀ g ∈ st.requested, g ∈ alKeys st.groupDeps) →
      ∀ g ∈ st1.requested, g ∈ alKeys st1.groupDeps) ∧
    (∀ x ∈ st.requested, x ∈ st1.requested) := by
  simp only [expandIfNew] at h
  split at h
  · cases h
    exact ⟨fun hnd => hnd, fun g hg => hg, fun hinv => hinv, fun x hx => hx⟩
  · split at h
    · cases h
    · next pr hgd =>
      split at h <;> cases h <;>
        refine ⟨fun hnd => nodup_alKeys_alSet _ _ _ hnd,
          fun g hg => mem_alKeys_alSet _ _ _ hg, ?_, ?_⟩ <;>
        first
        | (intro hinv g hg
           rcases List.mem_append.mp hg with hg' | hg'
           · exact mem_alKeys_alSet _ _ _ (hinv g hg')
           · rcases List.mem_singleton.mp hg' with rfl
             exact self_mem_alKeys_alSet _ _ _)
        | (intro x hx
           exact List.mem_append_left _ hx)

theorem procRefs_groupDeps (c : Ctx) (group : String) :
    ∀ (refs : List String) (st : RS) (nw : List (String × List String))
      (rem : List String) (upd : Bool) (st' : RS)
      (nw' : List (String × List String)) (rem' : List String) (upd' : Bool),
    procRefs c group st nw rem upd refs = .ok (st', nw', rem', upd') →
    ((alKeys st.groupDeps).Nodup → (alKeys st'.groupDeps).Nodup) ∧
    (∀ g ∈ alKeys st.groupDeps, g ∈ alKeys st'.groupDeps) ∧
    ((∀ g ∈ st.requested, g ∈ alKeys st.groupDeps) →
      ∀ g ∈ st'.requested, g ∈ alKeys st'.groupDeps) ∧
    (∀ x ∈ st.requested, x ∈ st'.requested) := by
  intro refs
  induction refs with
  | nil =>
    intro st nw rem upd st' nw' rem' upd' h
    simp only [procRefs] at h
    cases h
    exact ⟨fun hnd => hnd, fun g hg => hg, fun hinv => hinv, fun x hx => hx⟩
  | cons ref refs ih =>
    intro st nw rem upd st' nw' rem' upd' h
    simp only [procRefs] at h
    split at h
    · cases h
    · next pr heif =>
      obtain ⟨hE1, hE2, hE3, hE4⟩ := expandIfNew_groupDeps heif
      split at h
      · obtain ⟨hI1, hI2, hI3, hI4⟩ := ih _ _ _ _ _ _ _ _ h
        exact ⟨fun hnd => hI1 (hE1 hnd), fun g hg => hI2 g (hE2 g hg),
          fun hinv => hI3 (hE3 hinv), fun x hx => hI4 x (hE4 x hx)⟩
      · obtain ⟨hI1, hI2, hI3, hI4⟩ := ih _ _ _ _ _ _ _ _ h
        simp only [resolveEdge_groupDeps, resolveEdge_requested] at hI3 hI4
        exact ⟨fun hnd => hI1 (hE1 hnd), fun g hg => hI2 g (hE2 g hg),
          fun hinv => hI3 (hE3 hinv), fun x hx => hI4 x (hE4 x hx)⟩

theorem passStep_groupDeps (c : Ctx) :
    ∀ (fuel : Nat) (st : RS) (upd : Bool) (work : List (String × List String))
      (st' : RS) (upd' : Bool),
    passStep c fuel st upd work = .inl (.ok (st', upd')) →
    ((alKeys st.groupDeps).Nodup → (alKeys st'.groupDeps).Nodup) ∧
    (∀ g ∈ alKeys st.groupDeps, g ∈ alKeys st'.groupDeps) ∧
    ((∀ g ∈ st.requested, g ∈ alKeys st.groupDeps) →
      ∀ g ∈ st'.requested, g ∈ alKeys st'.groupDeps) ∧
    (∀ x ∈ st.requested, x ∈ st'.requested) := by
  intro fuel
  induction fuel with
  | zero =>
    intro st upd work st' upd' h
    cases work with
    | nil =>
      simp only [passStep, Sum.inl.injEq, Except.ok.injEq, Prod.mk.injEq] at h
      obtain ⟨rfl, rfl⟩ := h
      exact ⟨fun hnd => hnd, fun g hg => hg, fun hinv => hinv, fun x hx => hx⟩
    | cons pair rest => simp [passStep] at h
  | succ fuel ih =>
    intro st upd work st' upd' h
    cases work with
    | nil =>
      simp only [passStep, Sum.inl.injEq, Except.ok.injEq, Prod.mk.injEq] at h
      obtain ⟨rfl, rfl⟩ := h
      exact ⟨fun hnd => hnd, fun g hg => hg, fun hinv => hinv, fun x hx => hx⟩
    | cons pair rest =>
      obtain ⟨group, refs⟩ := pair
      simp only [passStep] at h
      split at h
      · cases h
      · next quad hpr =>
        obtain ⟨hP1, hP2, hP3, hP4⟩ :=
          procRefs_groupDeps c group refs st [] [] upd quad.1 quad.2.1
            quad.2.2.1 quad.2.2.2 hpr
        obtain ⟨hI1, hI2, hI3, hI4⟩ := ih _ _ _ _ _ h
        simp only [writeBack_groupDeps, writeBack_requested] at hI1 hI2 hI3 hI4
        exact ⟨fun hnd => hI1 (hP1 hnd), fun g hg => hI2 g (hP2 g hg),
          fun hinv => hI3 (hP3 hinv), fun x hx => hI4 x (hP4 x hx)⟩

theorem outerLoop_groupDeps (c : Ctx) :
    ∀ (fuel : Nat) (st st' : RS),
    outerLoop c fuel st = .ok st' →
    ((alKeys st.groupDeps).Nodup → (alKeys st'.groupDeps).Nodup) ∧
    (∀ g ∈ alKeys st.groupDeps, g ∈ alKeys st'.groupDeps) ∧
    ((∀ g ∈ st.requested, g ∈ alKeys st.groupDeps) →
      ∀ g ∈ st'.requested, g ∈ alKeys st'.groupDeps) ∧
    (∀ x ∈ st.requested, x ∈ st'.requested) := by
  intro fuel
  induction fuel with
  | zero =>
    intro st st' h
    simp [outerLoop] at h
  | succ fuel ih =>
    intro st st' h
    simp only [outerLoop] at h
    split at h
    · cases h
      exact ⟨fun hnd => hnd, fun g hg => hg, fun hinv => hinv, fun x hx => hx⟩
    · split at h
      · cases h
      · cases h
      · next st2 upd2 hps =>
        split at h
        · obtain ⟨hP1, hP2, hP3, hP4⟩ :=
            passStep_groupDeps c (innerFuel c st) st false st.referredGroups
              st2 upd2 hps
          obtain ⟨hI1, hI2, hI3, hI4⟩ := ih _ _ h
          exact ⟨fun hnd => hI1 (hP1 hnd), fun g hg => hI2 g (hP2 g hg),
            fun hinv => hI3 (hP3 hinv), fun x hx => hI4 x (hP4 x hx)⟩
        · cases h

theorem alKeys_map_pair {α β : Type} (l : List (String × α)) (f : String × α → β) :
    alKeys (l.map (fun p => (p.1, f p))) = alKeys l := by
  induction l with
  | nil => rfl
  | cons p rest ih =>
    simp only [List.map_cons, alKeys_cons]
    rw [ih]

theorem extra_fold_keys :
    ∀ (ed : List (String × List Nat)) (acc : List (String × List Nat)),
    (∀ g ∈ alKeys acc, g ∈ alKeys (ed.foldl
      (fun a p => alSet a p.1 ((alGet a p.1).getD [] ++ p.2)) acc)) ∧
    ((alKeys acc).Nodup → (alKeys (ed.foldl
      (fun a p => alSet a p.1 ((alGet a p.1).getD [] ++ p.2)) acc)).Nodup) := by
  intro ed
  induction ed with
  | nil => intro acc; exact ⟨fun g hg => hg, fun hnd => hnd⟩
  | cons p rest ih =>
    intro acc
    obtain ⟨ih1, ih2⟩ := ih (alSet acc p.1 ((alGet acc p.1).getD [] ++ p.2))
    refine ⟨?_, ?_⟩
    · intro g hg
      exact ih1 g (mem_alKeys_alSet _ _ _ hg)
    · intro hnd
      exact ih2 (nodup_alKeys_alSet _ _ _ hnd)

theorem finalize_keys (st : RS) (ir : Bool) :
    (∀ g ∈ alKeys st.groupDeps, g ∈ alKeys (finalize st ir)) ∧
    ((alKeys st.groupDeps).Nodup → (alKeys (finalize st ir)).Nodup) := by
  unfold finalize
  rw [alKeys_map_pair]
  split
  · exact extra_fold_keys st.extraDeps st.groupDeps
  · exact ⟨fun g hg => hg, fun hnd => hnd⟩

/-- If resolution returns a table, its group keys are pairwise distinct. -/
theorem resolve_ok_keys_nodup (m : Manifest) (rg : Option (List String))
    (ir : Bool) (t : List (String × List Requirement))
    (h : resolveDependencies m rg ir = .ok t) : (alKeys t).Nodup := by
  simp only [resolveDependencies] at h
  split at h
  · cases h
  · next st hseed =>
    obtain ⟨hQ1, hQ2, hQ3, hQ4, hQ5, hQ6, hQ7⟩ :=
      seedGo_spec (mkCtx m) ((rg.getD (iterGroups m)).map normalizeName) _ st hseed
        (fun g hg => hg)
    split at h
    · cases h
    · cases h
    · next st' hout =>
      cases h
      obtain ⟨hI1, hI2, hI3, hI4⟩ := outerLoop_groupDeps (mkCtx m) _ st st' hout
      exact (finalize_keys st' ir).2 (hI1 (hQ5 (by simp)))

/-- If resolution returns a table, every requested (normalized) group is among
its keys. -/
theorem resolve_ok_requested_mem (m : Manifest) (rg : Option (List String))
    (ir : Bool) (t : List (String × List Requirement))
    (h : resolveDependencies m rg ir = .ok t) :
    ∀ g ∈ (rg.getD (iterGroups m)).map normalizeName, g ∈ alKeys t := by
  simp only [resolveDependencies] at h
  split at h
  · cases h
  · next st hseed =>
    obtain ⟨hQ1, hQ2, hQ3, hQ4, hQ5, hQ6, hQ7⟩ :=
      seedGo_spec (mkCtx m) ((rg.getD (iterGroups m)).map normalizeName) _ st hseed
        (fun g hg => hg)
    split at h
    · cases h
    · cases h
    · next st' hout =>
      cases h
      obtain ⟨hI1, hI2, hI3, hI4⟩ := outerLoop_groupDeps (mkCtx m) _ st st' hout
      intro g hg
      exact (finalize_keys st' ir).1 g (hI2 g (hQ7 g hg))

/-- A self-reference item (the project's own name) never survives into a
group's requirement list. -/
theorem getGroupDeps_no_self {c : Ctx} {g : String} {reqs : List Requirement}
    {rs : List String} (h : getGroupDeps c g = .ok (reqs, rs)) :
    ∀ r ∈ reqs, ∀ n es, stripExtras r.line = some (n, es) →
      (some (normalizeName n) == c.pn) = false := by
  simp only [getGroupDeps] at h
  split at h
  · cases h
  · next deps hdeps =>
    split at h
    · cases h
    · next pr hc =>
      cases h
      intro r hr n es hne
      obtain ⟨s, hs, rfl⟩ := parseCollected_mem g (alHas c.md g) pr.1 r hr
      have hline : ({ parse_line s with groups := [g] } : Requirement).line = s :=
        parse_line_line s
      rw [hline] at hne
      rcases collectItems_collected c g (alHas c.md g) deps [] [] pr.1 pr.2 hc s hs
        with h' | h'
      · simp at h'
      · exact h' n es hne

/-- A metadata (default or optional) group's requirement list never retains an
editable line. -/
theorem getGroupDeps_no_editable {c : Ctx} {g : String} {reqs : List Requirement}
    {rs : List String} (hmd : alHas c.md g = true)
    (h : getGroupDeps c g = .ok (reqs, rs)) :
    ∀ r ∈ reqs, strStartsWith "-e " r.line = false := by
  simp only [getGroupDeps] at h
  split at h
  · cases h
  · next deps hdeps =>
    split at h
    · cases h
    · next pr hc =>
      cases h
      intro r hr
      rw [hmd] at hr
      exact parseCollected_no_editable_in_md g pr.1 r hr

/-! ## Claim theorems -/

/-- C1: if a full pass of the fixed-point closure over all pending groups
resolves no edge, `_resolve_dependencies` fails with the cyclic-include
`ProjectError` naming every group still unresolved at that point; in
particular, for dev groups `a` and `b` that include each other, resolving
`{a}` raises this cycle error naming both `a` and `b`, and does not loop
forever. -/
theorem c1_no_progress_cycle_error (c : Ctx) (st st' : RS) (fuel : Nat)
    (hne : st.referredGroups ≠ [])
    (hps : passStep c (innerFuel c st) st false st.referredGroups =
      .inl (.ok (st', false))) :
    outerLoop c (fuel + 1) st = .err (.cyclicInclude (alKeys st'.referredGroups)) ∧
    resolveDependencies cycleManifest (some ["a"]) true =
      .err (.cyclicInclude ["a", "b"]) := by
  constructor
  · have hemp : st.referredGroups.isEmpty = false := by
      cases hl : st.referredGroups with
      | nil => exact absurd hl hne
      | cons a l => rfl
    simp [outerLoop, hemp, hps]
  · rfl

/-- Witness for C1: the no-progress pass and the cycle error at the
two-group include cycle. -/
theorem c1_no_progress_cycle_error_witness :
    cycleSeedState.referredGroups ≠ [] ∧
    passStep cycleCtx (innerFuel cycleCtx cycleSeedState) cycleSeedState false
      cycleSeedState.referredGroups = .inl (.ok (cyclePassState, false)) ∧
    outerLoop cycleCtx 1 cycleSeedState =
      .err (.cyclicInclude (alKeys cyclePassState.referredGroups)) ∧
    resolveDependencies cycleManifest (some ["a"]) true =
      .err (.cyclicInclude ["a", "b"]) := by
  have h1 : cycleSeedState.referredGroups ≠ [] := by
    simp [cycleSeedState]
  have h2 : passStep cycleCtx (innerFuel cycleCtx cycleSeedState) cycleSeedState
      false cycleSeedState.referredGroups = .inl (.ok (cyclePassState, false)) :=
    rfl
  have h3 := c1_no_progress_cycle_error cycleCtx cycleSeedState cyclePassState 0
    h1 h2
  exact ⟨h1, h2, h3.1, h3.2⟩

/-- C9: for every manifest and every input, `_resolve_dependencies`
terminates — the fixed-point loop expands at most the finitely many declared
groups and every execution ends with a fully resolved table or an error (in
particular the no-progress cycle error); the fueled model never exhausts its
fuel. -/
theorem c9_resolve_terminates (m : Manifest) (rg : Option (List String))
    (ir : Bool) :
    (∃ t, resolveDependencies m rg ir = .ok t) ∨
    (∃ e, resolveDependencies m rg ir = .err e) := by
  cases hr : resolveDependencies m rg ir with
  | ok t => exact Or.inl ⟨t, rfl⟩
  | err e => exact Or.inr ⟨e, rfl⟩
  | fuel => exact absurd hr (resolveDependencies_ne_fuel m rg ir)

/-- C2 counterexample: in a metadata (optional) group, a self-reference extra
naming `default` — which exists as a group but is not an optional group — is
accepted: the call succeeds and inlines the default group instead of failing
with a `ProjectError`, contradicting the claim that extras of a
default/optional group may only name optional groups. -/
theorem c2_counterexample :
    resolveDependencies defaultExtraManifest (some ["test"]) true =
      .ok [("test",
            [{ editable := false, name := "foo", extras := [], specifier := "",
               line := "foo", groups := ["default", "test"] }]),
           ("default",
            [{ editable := false, name := "foo", extras := [], specifier := "",
               line := "foo", groups := ["default", "test"] }])] ∧
    alKeys defaultExtraManifest.optionalDependencies = ["test"] := by
  constructor
  · rfl
  · rfl

/-- C2 (amended): a string item whose name, after extras splitting and
normalization, equals the project's own normalized name is never added as a
Requirement; its normalized extras must exist among the allowed groups — the
optional groups together with the `default` group when the containing group is
default/optional, and additionally the dev groups when it is a dev group
(`allowedKeys`) — and are recorded as referred groups; an extra naming a group
outside that set fails with a `ProjectError` listing the offending names.  For
project `pkg`, a dev group item `pkg[test]` and optional group `test`
containing `pytest`, resolving the dev group with `include_referred = true`
yields `pytest` and no literal `pkg[test]` requirement. -/
theorem c2_self_reference_extras (c : Ctx) (g : String)
    (reqs : List Requirement) (rs : List String)
    (h : getGroupDeps c g = .ok (reqs, rs)) :
    (∀ r ∈ reqs, ∀ n es, stripExtras r.line = some (n, es) →
      (some (normalizeName n) == c.pn) = false) ∧
    (∀ x ∈ rs, x ∈ allowedKeys c (alHas c.md g)) ∧
    resolveDependencies selfRefManifest (some ["dev1"]) true =
      .ok [("dev1",
            [{ editable := false, name := "pytest", extras := [], specifier := "",
               line := "pytest", groups := ["test", "dev1"] }]),
           ("test",
            [{ editable := false, name := "pytest", extras := [], specifier := "",
               line := "pytest", groups := ["test", "dev1"] }])] ∧
    resolveDependencies badExtraManifest (some ["dev1"]) true =
      .err (.nonExistingExtras "dev1" ["nope"]) := by
  refine ⟨getGroupDeps_no_self h, getGroupDeps_referred h, ?_, ?_⟩
  · rfl
  · rfl

/-- Witness for C2 (amended) at the chain manifest's group `t`. -/
theorem c2_self_reference_extras_witness :
    getGroupDeps (mkCtx chainManifest) "t" = .ok ([ptReq0], []) ∧
    ((some (normalizeName "pt") == (mkCtx chainManifest).pn) = false) := by
  have h : getGroupDeps (mkCtx chainManifest) "t" = .ok ([ptReq0], []) := by rfl
  refine ⟨h, ?_⟩
  have h2 := (c2_self_reference_extras (mkCtx chainManifest) "t" _ _ h).1
  exact h2 ptReq0 (List.mem_singleton.mpr rfl) "pt" [] rfl

/-- C3: every Requirement is parsed with provenance exactly its declaring
group, but provenance propagation is not transitive beyond two include
levels: in the chain of dev groups `g → r → s → t` (via `include-group`), the
requirement `pt` declared in `t` ends with provenance `[t, s, r]` — the group
`g`, which transitively reaches `t`, is missing, contradicting the claim (and
the docstring of `_resolve_dependencies`, core.py:364). -/
theorem c3_provenance_not_transitive :
    resolveDependencies chainManifest (some ["g"]) true =
      .ok [("g", []), ("r", []),
           ("s", [{ editable := false, name := "pt", extras := [],
                    specifier := "", line := "pt", groups := ["t", "s", "r"] }]),
           ("t", [{ editable := false, name := "pt", extras := [],
                    specifier := "", line := "pt", groups := ["t", "s", "r"] }])] ∧
    ("g" ∈ (["t", "s", "r"] : List String)) = False := by
  constructor
  · rfl
  · simp

/-- C4: `get_dependencies` on a group absent from the manifest fails with a
bare Python `KeyError` from the `dev_dependencies[group]` mapping lookup
(core.py:373), not with the `ProjectError` (`UnknownGroupError`) the spec
requires; the `ProjectError` branch of `get_dependencies` (core.py:348) is
unreachable on this path. -/
theorem c4_unknown_group_keyerror :
    getDependencies emptyManifest (some "doesnotexist") =
      .err (.keyError "doesnotexist") ∧
    (PErr.keyError "doesnotexist").isProjectError = false := by
  constructor
  · rfl
  · rfl

/-- C5 counterexample: `_resolve_dependencies` performs no name+extras
merging: a default group declaring `foo>=1` and `foo>=2` resolves to an output
list with two Requirement entries whose normalized name and extras are
identical — "last declared wins" does not happen. -/
theorem c5_counterexample :
    resolveDependencies dupManifest (some ["default"]) true = .ok dupTable ∧
    ((dupTable.headD ("", [])).2.map (fun r => (r.name, r.extras))) =
      [("foo", []), ("foo", [])] := by
  constructor
  · rfl
  · rfl

/-- C5 (amended): the returned mapping never contains two entries for the
same group key — so resolving the same group twice in one call yields a
single entry for it (shown concretely: requesting `[default, default]` gives
the same result as `[default]`) — but within one group's output list, two
Requirement entries with identical normalized name and extras may both
appear: no merging takes place. -/
theorem c5_no_duplicate_group_keys (m : Manifest) (rg : Option (List String))
    (ir : Bool) (t : List (String × List Requirement))
    (h : resolveDependencies m rg ir = .ok t) :
    (alKeys t).Nodup ∧
    resolveDependencies dupManifest (some ["default", "default"]) true =
      resolveDependencies dupManifest (some ["default"]) true := by
  refine ⟨resolve_ok_keys_nodup m rg ir t h, ?_⟩
  rfl

/-- Witness for C5 (amended) at the duplicate-declaration manifest. -/
theorem c5_no_duplicate_group_keys_witness :
    resolveDependencies dupManifest (some ["default"]) true = .ok dupTable ∧
    (alKeys dupTable).Nodup := by
  have h : resolveDependencies dupManifest (some ["default"]) true =
      .ok dupTable := by rfl
  exact ⟨h, (c5_no_duplicate_group_keys dupManifest (some ["default"]) true
    dupTable h).1⟩

/-- C6 counterexample: with the explicit requested set `{g}`, the returned
mapping also contains the transitively discovered group `r`: the result is
not restricted to the originally requested groups. -/
theorem c6_counterexample :
    resolveDependencies includeManifest (some ["g"]) true =
      .ok [("g", [xReq]), ("r", [xReq])] ∧
    alKeys [("g", [xReq]), ("r", [xReq])] = ["g", "r"] := by
  constructor
  · rfl
  · rfl

/-- C6 (amended): the mapping returned for an explicit requested set contains
every originally requested (normalized) group, and in addition every group
discovered transitively during the closure — no restriction to the original
request is applied; `all_dependencies` is exactly the resolution of all
declared groups with `include_referred = false`. -/
theorem c6_requested_groups_are_keys (m : Manifest) (rgl : List String)
    (ir : Bool) (t : List (String × List Requirement))
    (h : resolveDependencies m (some rgl) ir = .ok t) :
    (∀ g ∈ rgl, normalizeName g ∈ alKeys t) ∧
    (∀ m' : Manifest, allDependencies m' = resolveDependencies m' none false) ∧
    "r" ∈ alKeys [("g", [xReq]), ("r", [xReq])] := by
  refine ⟨?_, fun m' => rfl, by simp [alKeys]⟩
  intro g hg
  exact resolve_ok_requested_mem m (some rgl) ir t h (normalizeName g)
    (List.mem_map_of_mem _ hg)

/-- Witness for C6 (amended) at the one-include manifest. -/
theorem c6_requested_groups_are_keys_witness :
    resolveDependencies includeManifest (some ["g"]) true =
      .ok [("g", [xReq]), ("r", [xReq])] ∧
    normalizeName "g" ∈ alKeys [("g", [xReq]), ("r", [xReq])] := by
  have h : resolveDependencies includeManifest (some ["g"]) true =
      .ok [("g", [xReq]), ("r", [xReq])] := by rfl
  exact ⟨h, (c6_requested_groups_are_keys includeManifest ["g"] true _ h).1 "g"
    (List.mem_singleton.mpr rfl)⟩

/-- C7: an editable line (one starting with `-e `) appearing in the default
group or in any optional group is dropped from that group's resolved output
(with a warning as the only effect), while the identical line appearing in a
dev group is parsed and retained as a Requirement. -/
theorem c7_editable_skip (c : Ctx) (g : String) (reqs : List Requirement)
    (rs : List String) (hmd : alHas c.md g = true)
    (h : getGroupDeps c g = .ok (reqs, rs)) :
    (∀ r ∈ reqs, strStartsWith "-e " r.line = false) ∧
    resolveDependencies editableManifest (some ["default", "d"]) true =
      .ok [("default", [fooPlainReq]), ("d", [localEditableReq])] := by
  refine ⟨getGroupDeps_no_editable hmd h, ?_⟩
  rfl

/-- Witness for C7 at `editableManifest`'s default group. -/
theorem c7_editable_skip_witness :
    alHas (mkCtx editableManifest).md "default" = true ∧
    getGroupDeps (mkCtx editableManifest) "default" = .ok ([fooPlainReq], []) ∧
    strStartsWith "-e " fooPlainReq.line = false := by
  have h1 : alHas (mkCtx editableManifest).md "default" = true := by rfl
  have h2 : getGroupDeps (mkCtx editableManifest) "default" =
      .ok ([fooPlainReq], []) := by rfl
  exact ⟨h1, h2, (c7_editable_skip _ _ _ _ h1 h2).1 fooPlainReq
    (List.mem_singleton.mpr rfl)⟩

/-- C8: each input of `add_dependencies` that matches (by normalized name and
extras) an existing declared line whose index was not already updated in this
call replaces that line at its existing position; an input with no such match
is appended at the end; existing `["foo>=1", "bar"]` plus `["foo>=2"]` yields
`["foo>=2", "bar"]`; and every returned Requirement has its provenance set to
exactly `[to_group]`. -/
theorem c8_add_dependencies (existing : List Item) (reqLines : List String)
    (line toGroup : String) (i : Nat) :
    (∀ r ∈ (addDependencies existing reqLines toGroup).2, r.groups = [toGroup]) ∧
    (firstMatch (parse_line line) [] existing 0 = none →
      (addDependencies existing [line] toGroup).1 =
        existing ++ [.str (parse_line line).as_line]) ∧
    (firstMatch (parse_line line) [] existing 0 = some i →
      (addDependencies existing [line] toGroup).1 =
        existing.set i (.str (parse_line line).as_line)) ∧
    addDependencies [.str "foo>=1", .str "bar"] ["foo>=2"] "default" =
      ([.str "foo>=2", .str "bar"],
       [{ editable := false, name := "foo", extras := [], specifier := ">=2",
          line := "foo>=2", groups := ["default"] },
        { editable := false, name := "bar", extras := [], specifier := "",
          line := "bar", groups := ["default"] }]) := by
  refine ⟨?_, ?_, ?_, by rfl⟩
  · intro r hr
    simp only [addDependencies] at hr
    rcases List.mem_map.mp hr with ⟨x, _, rfl⟩
    rfl
  · intro h
    simp [addDependencies, addDepsLoop, h]
  · intro h
    simp [addDependencies, addDepsLoop, h]

/-- Witness for C8: a no-match append and an in-place replacement. -/
theorem c8_add_dependencies_witness :
    firstMatch (parse_line "baz") [] [.str "foo>=1"] 0 = none ∧
    (addDependencies [.str "foo>=1"] ["baz"] "g").1 =
      [.str "foo>=1"] ++ [.str (parse_line "baz").as_line] ∧
    firstMatch (parse_line "foo>=3") [] [.str "foo>=1"] 0 = some 0 ∧
    (addDependencies [.str "foo>=1"] ["foo>=3"] "g").1 =
      List.set [.str "foo>=1"] 0 (.str (parse_line "foo>=3").as_line) := by
  have h1 : firstMatch (parse_line "baz") [] [.str "foo>=1"] 0 = none := by rfl
  have h2 : firstMatch (parse_line "foo>=3") [] [.str "foo>=1"] 0 = some 0 := by
    rfl
  exact ⟨h1, (c8_add_dependencies [.str "foo>=1"] ["baz"] "baz" "g" 0).2.1 h1,
    h2, (c8_add_dependencies [.str "foo>=1"] ["foo>=3"] "foo>=3" "g" 0).2.2.1 h2⟩

/-- C10 counterexample: in `shadowDefaultManifest` the group `x` is declared
in both the optional table and the dev table, and its metadata declaration
self-references the extra `default`.  `default` is not an optional group
(`alKeys` of the optional table is `["x"]`), yet resolution succeeds and
records `default` as a referred group instead of failing with a
`ProjectError` — so the claim that a shadowed group's self-reference extras
may only name optional groups is false of the program. -/
theorem c10_counterexample :
    resolveDependencies shadowDefaultManifest (some ["x"]) true =
      .ok [("x", [shadowFooReq]), ("default", [shadowFooReq])] ∧
    alKeys shadowDefaultManifest.optionalDependencies = ["x"] ∧
    alHas (mkCtx shadowDefaultManifest).md "x" = true ∧
    alHas (mkCtx shadowDefaultManifest).dev "x" = true := by
  refine ⟨?_, ?_, ?_, ?_⟩
  · rfl
  · rfl
  · rfl
  · rfl

/-- C10 (amended): a group name declared both in the metadata tables (default
or optional dependencies) and in the dev tables is expanded exclusively from
the metadata declaration: the expansion does not read the dev table at all,
the editable-skip rule applies, and self-reference extras are checked against
the metadata groups — the optional groups together with the `default` group —
not against the dev table; shown also concretely on a group declared in both
tables. -/
theorem c10_metadata_shadows_dev (c : Ctx) (dev2 : List (String × List Item))
    (g : String) (reqs : List Requirement) (rs : List String)
    (hmd : alHas c.md g = true)
    (h : getGroupDeps c g = .ok (reqs, rs)) :
    getGroupDeps c g = getGroupDeps { c with dev := dev2 } g ∧
    (∀ r ∈ reqs, strStartsWith "-e " r.line = false) ∧
    (∀ x ∈ rs, x ∈ alKeys c.md) ∧
    resolveDependencies shadowManifest (some ["x"]) true =
      .ok [("x", [mdepReq])] := by
  refine ⟨getGroupDeps_dev_indep c dev2 g hmd, getGroupDeps_no_editable hmd h,
    ?_, by rfl⟩
  intro x hx
  have hx' := getGroupDeps_referred h x hx
  simpa [allowedKeys, hmd] using hx'

/-- Witness for C10 at the doubly-declared group `x`. -/
theorem c10_metadata_shadows_dev_witness :
    alHas (mkCtx shadowManifest).md "x" = true ∧
    getGroupDeps (mkCtx shadowManifest) "x" = .ok ([mdepReq], []) ∧
    getGroupDeps (mkCtx shadowManifest) "x" =
      getGroupDeps { mkCtx shadowManifest with dev := [] } "x" := by
  have h1 : alHas (mkCtx shadowManifest).md "x" = true := by rfl
  have h2 : getGroupDeps (mkCtx shadowManifest) "x" = .ok ([mdepReq], []) := by
    rfl
  exact ⟨h1, h2, (c10_metadata_shadows_dev (mkCtx shadowManifest) [] "x" _ _
    h1 h2).1⟩

end Pdm
